import Mathlib

/-!
Verification of the CFG translator (`cfg_translator.cpp`) of the floor_llvm
CFG structurizer.  The host LLVM IR is shallowly embedded: a function is a
list of basic blocks, a basic block is a list of instructions, instruction
handles and SSA values are opaque naturals.  Fatal paths of the C++ code
(`abort()` after a failed classification, `llvm_unreachable`, and operations
that would dereference a null pointer in a release build) are modelled by
`Option`, with `none` standing for abnormal termination.  Plain `assert`
statements (compiled out in release builds) are modelled as no-ops, matching
the code that follows them.
-/

namespace CFGT

/-- Identifier of a host basic block (stands for a `BasicBlock *`). -/
abbrev BBId := Nat

/-- An opaque host SSA value; `undef` stands for `UndefValue::get`. -/
inductive Value where
  | var (v : Nat)
  | undef
deriving DecidableEq, Repr

/-- A host terminator instruction.  `other` stands for any terminator opcode
the translator does not support (e.g. `invoke`, `indirectbr`). -/
inductive HostTerm where
  | condBr (cond : Value) (tb fb : BBId)
  | br (target : BBId)
  | ret (value : Option Value)
  | unreach
  | switch (cond : Value) (dflt : BBId) (cases : List (Value × BBId))
  | other (opcode : Nat)
deriving DecidableEq, Repr

/-- A host instruction: a phi node, an opaque non-terminator operation, a
call (only the callee name and label arguments matter to the translator), or
a terminator. -/
inductive Inst where
  | phi (phiId : Nat) (incoming : List (BBId × Value))
  | op (opId : Nat)
  | call (fname : String) (labelArgs : List BBId)
  | term (t : HostTerm)
deriving DecidableEq, Repr

/-- A host basic block: identity, name, ordered instruction list (the
terminator, when present, is the last instruction). -/
structure BB where
  id : BBId
  name : String
  instrs : List Inst
deriving DecidableEq, Repr

/-- A host function: its basic blocks in block-list order. -/
abbrev Func := List BB

/-- `Terminator::Type` of the translator. -/
inductive TermType where
  | Condition
  | Branch
  | Return
  | Unreachable
  | Kill
  | Switch
deriving DecidableEq, Repr

/-- `MergeType` of a CFG node. -/
inductive MergeType where
  | MNone
  | MSelection
  | MLoop
deriving DecidableEq, Repr

/-- One case of a CFG switch terminator record (`Terminator::Case`). -/
structure Case where
  node : BBId
  value : Option Value
  is_default : Bool
deriving DecidableEq, Repr

/-- The translator's tagged terminator record.  Node references are the
referenced node's basic-block identity (nodes and their blocks are in
bijection). -/
inductive CTerm where
  | condition (cond : Value) (tb fb : BBId)
  | branch (target : BBId)
  | ret (value : Option Value)
  | unreach
  | kill
  | switch (cond : Value) (cases : List Case)
deriving DecidableEq, Repr

/-- The tag of a terminator record. -/
def recordType : CTerm → TermType
  | .condition _ _ _ => .Condition
  | .branch _ => .Branch
  | .ret _ => .Return
  | .unreach => .Unreachable
  | .kill => .Kill
  | .switch _ _ => .Switch

/-- A recorded phi: the host phi it belongs to and its incoming
`(predecessor node, value)` list. -/
structure CPhi where
  phi : Nat
  incoming : List (BBId × Value)
deriving DecidableEq, Repr

/-- A CFG node of the structurizer, restricted to the state the translator
reads and writes. -/
structure CFGNode where
  bbId : BBId
  name : String
  merge : MergeType
  loop_merge_block : Option BBId
  loop_continue_block : Option BBId
  selection_merge_block : Option BBId
  selection_merge_exit : Bool
  phi_override : Option BBId
  term : CTerm
  phis : List CPhi
deriving DecidableEq, Repr

/-- The translator's state: the host function, the node pool, the entry
node, plus a supply of fresh block identities for synthesized blocks. -/
structure EmitState where
  F : Func
  pool : List CFGNode
  entry : BBId
  fresh : Nat
deriving DecidableEq, Repr

/-- Look a block up by identity (a `BasicBlock *` dereference). -/
def blockOf (f : Func) (b : BBId) : Option BB :=
  f.find? (fun blk => blk.id = b)

/-- All block identities of a function. -/
def bbIds (f : Func) : List BBId :=
  f.map (fun b => b.id)

/-- The terminator of a block, when its last instruction is one
(`BasicBlock::getTerminator`). -/
def getTerm (b : BB) : Option HostTerm :=
  match b.instrs.getLast? with
  | some (.term t) => some t
  | _ => none

/-- The instruction preceding the terminator (`Instruction::getPrevNode` on
the terminator), `none` when the terminator is the block's first
instruction. -/
def prevOfTerm (b : BB) : Option Inst :=
  b.instrs.dropLast.getLast?

/-- Whether an instruction is a call to `floor.discard_fragment`. -/
def isDiscardCall : Option Inst → Bool
  | some (.call fname _) => fname = "floor.discard_fragment"
  | _ => false

/-- `get_terminator_type` (cfg_translator.cpp:61-78).  `none` models the
`assert(false); abort();` tail, which runs in every build configuration. -/
def get_terminator_type (prev : Option Inst) : HostTerm → Option TermType
  | .condBr _ _ _ => some .Condition
  | .br _ => some .Branch
  | .ret _ => some .Return
  | .unreach =>
      if isDiscardCall prev then some .Kill else some .Unreachable
  | .switch _ _ _ => some .Switch
  | .other _ => none

/-- Whether a host terminator is one of the translator's supported
variants. -/
def supportedTerm : HostTerm → Bool
  | .other _ => false
  | _ => true

/-- Phi import (cfg_translator.cpp:83-101): duplicate incoming blocks are
skipped, keeping the first occurrence of each block. -/
def importPhiIncoming : List (BBId × Value) → List BBId → List (BBId × Value)
  | [], _ => []
  | (b, v) :: rest, seen =>
      if b ∈ seen then importPhiIncoming rest seen
      else (b, v) :: importPhiIncoming rest (b :: seen)

/-- The incoming list recorded for a host phi at import. -/
def translate_phi (host : List (BBId × Value)) : List (BBId × Value) :=
  importPhiIncoming host []

/-- `needs_fake_selection` (cfg_translator.cpp:158-168): a loop header whose
conditional terminator targets neither the merge nor the continue block.
Pointer comparisons against a possibly-null `merge_block`/`continue_block`
become comparisons against an `Option`. -/
def needs_fake_selection (n : CFGNode) : Bool :=
  match n.term with
  | .condition _ tb fb =>
      n.merge == MergeType.MLoop &&
      n.loop_merge_block != some tb && n.loop_continue_block != some tb &&
      n.loop_merge_block != some fb && n.loop_continue_block != some fb
  | _ => false

/-- Rewrite the block with the given identity. -/
def mapBlock (f : Func) (b : BBId) (g : BB → BB) : Func :=
  f.map (fun x => if x.id = b then g x else x)

/-- Replace a block's instruction list. -/
def setInstrs (f : Func) (b : BBId) (new : List Inst) : Func :=
  mapBlock f b (fun x => { x with instrs := new })

/-- Insert an instruction immediately before the last instruction of a
list (insertion before a block's terminator). -/
def insertBeforeLastInst : List Inst → Inst → List Inst
  | [], i => [i]
  | [t], i => [i, t]
  | a :: b :: rest, i => a :: insertBeforeLastInst (b :: rest) i

/-- Insert an instruction immediately before the terminator of block `b`
(`CallInst::Create(..., block->getTerminator())`).  `none` models the crash
when the block does not exist or has no terminator. -/
def insertBeforeTermInst (f : Func) (b : BBId) (i : Inst) : Option Func :=
  match blockOf f b with
  | none => none
  | some blk =>
      match blk.instrs.getLast? with
      | some (.term _) =>
          some (mapBlock f b (fun x => { x with instrs := insertBeforeLastInst x.instrs i }))
      | _ => none

/-- Insert a new block immediately before the block with identity `target`;
when no such block exists the new block is appended
(`BasicBlock::Create(ctx, name, &F, insert_before)`). -/
def insertBlockBefore (f : Func) (target : BBId) (nb : BB) : Func :=
  match f with
  | [] => [nb]
  | b :: rest =>
      if b.id = target then nb :: b :: rest
      else b :: insertBlockBefore rest target nb

/-- Insert a new block immediately after the block with identity `target`
(`BasicBlock::Create(ctx, name, &F, target->getNextNode())`); appended when
`target` is absent. -/
def insertBlockAfter (f : Func) (target : BBId) (nb : BB) : Func :=
  match f with
  | [] => [nb]
  | b :: rest =>
      if b.id = target then b :: nb :: rest
      else b :: insertBlockAfter rest target nb

/-- `insert_merge_block_marker` (cfg_translator.cpp:618-641): a call to
`floor.merge_block` is inserted immediately before the merge block's
terminator. -/
def insert_merge_block_marker (f : Func) (mb : BBId) : Option Func :=
  insertBeforeTermInst f mb (.call "floor.merge_block" [])

/-- `insert_continue_block_marker` (cfg_translator.cpp:643-667). -/
def insert_continue_block_marker (f : Func) (cb : BBId) : Option Func :=
  insertBeforeTermInst f cb (.call "floor.continue_block" [])

/-- `create_loop_merge` (cfg_translator.cpp:669-695): the `floor.loop_merge`
call is inserted before `header`'s terminator (the `insert_before`
instruction at every call site), then the merge and continue markers are
inserted into their target blocks. -/
def create_loop_merge (f : Func) (header mb cb : BBId) : Option Func :=
  (insertBeforeTermInst f header (.call "floor.loop_merge" [mb, cb])).bind fun f1 =>
  (insert_merge_block_marker f1 mb).bind fun f2 =>
  insert_continue_block_marker f2 cb

/-- `create_selection_merge` (cfg_translator.cpp:697-721). -/
def create_selection_merge (f : Func) (header mb : BBId) : Option Func :=
  (insertBeforeTermInst f header (.call "floor.selection_merge" [mb])).bind fun f1 =>
  insert_merge_block_marker f1 mb

/-- Erase a block's terminator when it has one (`eraseFromParent` at the top
of `add_or_update_terminator`). -/
def dropTermInst (l : List Inst) : List Inst :=
  match l.getLast? with
  | some (.term _) => l.dropLast
  | _ => l

/-- Whether the `Kill` lowering has to create a `floor.discard_fragment`
call (cfg_translator.cpp:220-241). -/
def needsDiscardCall (body : List Inst) : Bool :=
  match body.getLast? with
  | none => true
  | some (.call fname _) => fname != "floor.discard_fragment"
  | some _ => true

/-- The non-default cases of a switch record, in order, with their concrete
values; `none` models the crash of `addCase` on a null case value. -/
def switchNonDefault (cases : List Case) : Option (List (Value × BBId)) :=
  (cases.filter (fun c => !c.is_default)).mapM
    (fun c => c.value.map (fun v => (v, c.node)))

/-- `add_or_update_terminator` (cfg_translator.cpp:170-267): erase the
existing host terminator and create a new one from the terminator record.
For a loop header that needs a fake selection, the block instead branches to
a fresh `<name>.fake_selection` block carrying the conditional branch, with
a fresh `<name>.unreachable` block as its selection merge, and the node's
`phi_override` is set to the fake selection block.  The result is the
rewritten function, the (possibly updated) node and the next fresh block
identity. -/
def add_or_update_terminator (f : Func) (fresh : Nat) (n : CFGNode) :
    Option (Func × CFGNode × Nat) :=
  match blockOf f n.bbId with
  | none => none
  | some blk =>
    let body := dropTermInst blk.instrs
    match n.term with
    | .condition c tb fb =>
        if needs_fake_selection n then
          let fsId := fresh
          let ubId := fresh + 1
          -- the fake selection block is created first, before the node's
          -- original successor block; the unreachable block is then created
          -- before the (new) next block, i.e. between node and fake selection
          let fs : BB := ⟨fsId, n.name ++ ".fake_selection", [.term (.condBr c tb fb)]⟩
          let ub : BB := ⟨ubId, n.name ++ ".unreachable", [.term .unreach]⟩
          let f1 := insertBlockAfter f n.bbId fs
          let f2 := insertBlockAfter f1 n.bbId ub
          let f3 := setInstrs f2 n.bbId (body ++ [.term (.br fsId)])
          (create_selection_merge f3 fsId ubId).map
            (fun f4 => (f4, { n with phi_override := some fsId }, fresh + 2))
        else
          some (setInstrs f n.bbId (body ++ [.term (.condBr c tb fb)]), n, fresh)
    | .branch d =>
        some (setInstrs f n.bbId (body ++ [.term (.br d)]), n, fresh)
    | .ret v =>
        some (setInstrs f n.bbId (body ++ [.term (.ret v)]), n, fresh)
    | .kill =>
        let body1 :=
          if needsDiscardCall body then body ++ [.call "floor.discard_fragment" []]
          else body
        some (setInstrs f n.bbId (body1 ++ [.term .unreach]), n, fresh)
    | .unreach =>
        some (setInstrs f n.bbId (body ++ [.term .unreach]), n, fresh)
    | .switch c cases =>
        match cases.find? (fun cs => cs.is_default) with
        | none => none
        | some d =>
            match switchNonDefault cases with
            | none => none
            | some scases =>
                some (setInstrs f n.bbId
                        (body ++ [.term (.switch c d.node scases)]), n, fresh)

/-- Per-case comparison of an existing host switch against the terminator
record (cfg_translator.cpp:340-350): the i-th host case is compared with the
i-th record entry. -/
def switchCasesMatch : List (Value × BBId) → List Case → Bool
  | [], _ => true
  | _ :: _, [] => false
  | (v, s) :: rest, cs :: crest =>
      s == cs.node && some v == cs.value && switchCasesMatch rest crest

/-- The terminator-update step for one node (cfg_translator.cpp:279-357):
keep the existing host terminator when its type and operands agree with the
record and no fake selection is required, otherwise erase it and create a
new one.  `none` models the unconditional `abort()` on an unsupported host
terminator. -/
def updateTerminatorNode (f : Func) (fresh : Nat) (n : CFGNode) :
    Option (Func × CFGNode × Nat) :=
  match blockOf f n.bbId with
  | none => none
  | some blk =>
    match getTerm blk with
    | none => add_or_update_terminator f fresh n
    | some t =>
      match get_terminator_type (prevOfTerm blk) t with
      | none => none
      | some ty =>
        if ty != recordType n.term || needs_fake_selection n then
          add_or_update_terminator f fresh n
        else
          match n.term, t with
          | .condition c' tb' fb', .condBr c tb fb =>
              if c == c' && tb == tb' && fb == fb' then some (f, n, fresh)
              else add_or_update_terminator f fresh n
          | .branch d', .br d =>
              if d == d' then some (f, n, fresh)
              else add_or_update_terminator f fresh n
          | .ret v', .ret v =>
              if v == v' then some (f, n, fresh)
              else add_or_update_terminator f fresh n
          | .unreach, _ => some (f, n, fresh)
          | .kill, _ => some (f, n, fresh)
          | .switch c' cases', .switch c dflt scases =>
              match cases'.find? (fun cs => cs.is_default) with
              | none => add_or_update_terminator f fresh n
              | some d =>
                  if dflt != d.node || c != c' ||
                      scases.length != cases'.length then
                    add_or_update_terminator f fresh n
                  else if switchCasesMatch scases cases' then some (f, n, fresh)
                  else add_or_update_terminator f fresh n
          | _, _ => add_or_update_terminator f fresh n

/-- Fold of `updateTerminatorNode` over the node pool in pool order. -/
def update_terminators_aux (f : Func) (fresh : Nat) :
    List CFGNode → Option (Func × List CFGNode × Nat)
  | [] => some (f, [], fresh)
  | n :: rest =>
      match updateTerminatorNode f fresh n with
      | none => none
      | some (f1, n1, fr1) =>
          match update_terminators_aux f1 fr1 rest with
          | none => none
          | some (f2, rest2, fr2) => some (f2, n1 :: rest2, fr2)

/-- The terminator-update phase of `cfg_to_llvm_ir`. -/
def update_terminators (st : EmitState) : Option EmitState :=
  match update_terminators_aux st.F st.fresh st.pool with
  | none => none
  | some (f, p, fr) => some { st with F := f, pool := p, fresh := fr }

/-- The successor blocks a block's terminator branches to, in operand order
(the successors followed by `compute_simple_reachability`,
cfg_translator.cpp:359-389; returns and unreachables have none). -/
def blockSuccs (b : BB) : List BBId :=
  match getTerm b with
  | some (.condBr _ tb fb) => [tb, fb]
  | some (.br t) => [t]
  | some (.switch _ dflt cases) => dflt :: cases.map (fun c => c.2)
  | _ => []

/-- Successors of the block with the given identity. -/
def hostSuccs (f : Func) (b : BBId) : List BBId :=
  match blockOf f b with
  | some blk => blockSuccs blk
  | none => []

/-- Worklist depth-first search computing the set of blocks reachable from
the entry (`compute_simple_reachability`).  The fuel only makes the
recursion structural; `reachFuel` below is enough for the worklist to drain
completely, since every processed element was either the entry or pushed as
a successor of a newly visited block. -/
def reachAux (f : Func) : Nat → List BBId → List BBId → List BBId
  | 0, _, vis => vis
  | _ + 1, [], vis => vis
  | fuel + 1, b :: ws, vis =>
      if b ∈ vis then reachAux f fuel ws vis
      else if b ∈ bbIds f then reachAux f fuel (hostSuccs f b ++ ws) (b :: vis)
      else reachAux f fuel ws vis

/-- Total number of successor-list entries of the function. -/
def totalSuccs (f : Func) : Nat :=
  (f.map (fun b => (blockSuccs b).length)).sum

/-- Fuel bound for `reachAux`: one initial element plus at most `totalSuccs`
pushed elements, with slack. -/
def reachFuel (f : Func) : Nat :=
  1 + f.length + totalSuccs f

/-- The set (as a list) of blocks reachable from `entry` by forward
successor edges. -/
def computeReach (f : Func) (entry : BBId) : List BBId :=
  reachAux f (reachFuel f) [entry] []

/-- `PHINode::getIncomingValueForBlock`: the value of the first incoming
entry for the given block. -/
def lookupIncoming (inc : List (BBId × Value)) (b : BBId) : Option Value :=
  (inc.find? (fun e => e.1 = b)).map (fun e => e.2)

/-- Look up a pool node by the identity of its basic block. -/
def findNode (pool : List CFGNode) (b : BBId) : Option CFGNode :=
  pool.find? (fun n => n.bbId = b)

/-- Incoming-block rewriting at emission (cfg_translator.cpp:427-438): each
incoming entry uses the source node's `phi_override` block when set,
otherwise the source node's own block, and is added only when that block is
reachable (the unreachable branch only contains a release-disabled
assert). -/
def emitPhiIncoming (pool : List CFGNode) (reach : List BBId) :
    List (BBId × Value) → List (BBId × Value)
  | [] => []
  | (b, v) :: rest =>
      let bb := match findNode pool b with
        | some n => n.phi_override.getD b
        | none => b
      if bb ∈ reach then (bb, v) :: emitPhiIncoming pool reach rest
      else emitPhiIncoming pool reach rest

/-- The predecessors of block `b`, one entry per terminator operand
targeting `b` (as `predecessors(BasicBlock *)`, which yields duplicates for
a terminator listing a block twice). -/
def hostPreds (f : Func) (b : BBId) : List BBId :=
  f.flatMap (fun blk =>
    (blockSuccs blk).filterMap (fun s => if s = b then some blk.id else none))

/-- The duplicate-predecessor scan (cfg_translator.cpp:443-455): reachable
predecessors are recorded on first occurrence together with the phi's value
for them (`none` models the assert inside `getIncomingValueForBlock` when a
reachable predecessor has no incoming entry); later occurrences are
collected as duplicates carrying that recorded value. -/
def scanPreds (reach : List BBId) (inc : List (BBId × Value)) :
    List BBId → List BBId → Option (List (BBId × Value))
  | [], _ => some []
  | p :: rest, seen =>
      if p ∈ reach then
        match lookupIncoming inc p with
        | none => none
        | some v =>
            if p ∈ seen then
              (scanPreds reach inc rest seen).map (fun l => (p, v) :: l)
            else scanPreds reach inc rest (p :: seen)
      else scanPreds reach inc rest seen

/-- Duplicate-predecessor re-materialization (cfg_translator.cpp:440-459):
when the block has more predecessors than the phi has incoming values, one
entry per duplicate reachable predecessor is appended, with the value of
the retained first occurrence. -/
def rematerializePhi (preds reach : List BBId) (inc : List (BBId × Value)) :
    Option (List (BBId × Value)) :=
  if inc.length + 1 ≤ preds.length then
    (scanPreds reach inc preds []).map (fun dups => inc ++ dups)
  else some inc

/-- Rewrite of one instruction during the phi-update phase: phi nodes get
their incoming list cleared and rebuilt; other instructions are kept.  A phi
without a recorded counterpart keeps its cleared incoming list (the failed
assert is release-disabled and the loop continues). -/
def updatePhiInst (pool : List CFGNode) (reach : List BBId) (n : CFGNode)
    (preds : List BBId) : Inst → Option Inst
  | .phi pid _ =>
      match n.phis.find? (fun p => p.phi = pid) with
      | none => some (.phi pid [])
      | some cphi =>
          let inc1 := emitPhiIncoming pool reach cphi.incoming
          (rematerializePhi preds reach inc1).map (fun inc2 => .phi pid inc2)
  | i => some i

/-- Rewrite of a block's instruction list during the phi-update phase, one
instruction at a time. -/
def updateInstrs (pool : List CFGNode) (reach : List BBId) (n : CFGNode)
    (preds : List BBId) : List Inst → Option (List Inst)
  | [] => some []
  | i :: rest =>
      match updatePhiInst pool reach n preds i with
      | none => none
      | some i' =>
          match updateInstrs pool reach n preds rest with
          | none => none
          | some rest' => some (i' :: rest')

/-- The phi-update step for one node (cfg_translator.cpp:392-461):
unreachable nodes are skipped. -/
def update_phis_node (f : Func) (pool : List CFGNode) (reach : List BBId)
    (n : CFGNode) : Option Func :=
  if n.bbId ∈ reach then
    match blockOf f n.bbId with
    | none => none
    | some blk =>
        match updateInstrs pool reach n (hostPreds f n.bbId) blk.instrs with
        | none => none
        | some newInstrs => some (setInstrs f n.bbId newInstrs)
  else some f

/-- Fold of the phi-update step over the pool. -/
def update_phis_aux (f : Func) (pool : List CFGNode) (reach : List BBId) :
    List CFGNode → Option Func
  | [] => some f
  | n :: rest =>
      match update_phis_node f pool reach n with
      | none => none
      | some f1 => update_phis_aux f1 pool reach rest

/-- The phi-update phase of `cfg_to_llvm_ir`. -/
def update_phis (st : EmitState) (reach : List BBId) : Option EmitState :=
  (update_phis_aux st.F st.pool reach st.pool).map (fun f => { st with F := f })

/-- Whether some pool node owns the block. -/
def poolHasBlock (pool : List CFGNode) (b : BBId) : Bool :=
  pool.any (fun n => n.bbId == b)

/-- Pruning pass 1 and 2 (cfg_translator.cpp:463-480): all instructions of
unreachable pool blocks are erased. -/
def prune_clear (f : Func) (pool : List CFGNode) (reach : List BBId) : Func :=
  f.map (fun b =>
    if poolHasBlock pool b.id = true ∧ b.id ∉ reach then { b with instrs := [] }
    else b)

/-- Pruning pass 3 (cfg_translator.cpp:481-491): unreachable pool blocks are
erased from the function.  Blocks without a pool node are not touched, since
the pass iterates the pool. -/
def prune_erase (f : Func) (pool : List CFGNode) (reach : List BBId) : Func :=
  f.filter (fun b => !poolHasBlock pool b.id || decide (b.id ∈ reach))

/-- Removal of the pruned nodes from the pool (cfg_translator.cpp:492-494). -/
def prune_pool (pool : List CFGNode) (reach : List BBId) : List CFGNode :=
  pool.filter (fun n => decide (n.bbId ∈ reach))

/-- The pruning phase of `cfg_to_llvm_ir`. -/
def prune (st : EmitState) (reach : List BBId) : EmitState :=
  { st with F := prune_erase (prune_clear st.F st.pool reach) st.pool reach,
            pool := prune_pool st.pool reach }

/-- Whether the block's terminator is an `unreachable` instruction
(`dyn_cast_or_null<UnreachableInst>(bb->getTerminator())`). -/
def endsUnreach (f : Func) (b : BBId) : Bool :=
  match blockOf f b with
  | some blk =>
      match blk.instrs.getLast? with
      | some (.term .unreach) => true
      | _ => false
  | none => false

/-- The continue-block argument of a loop merge: the node's `phi_override`
replaces a self-referencing continue block when set
(cfg_translator.cpp:564-568 and 604-608). -/
def continueArg (n : CFGNode) (cb : BBId) : BBId :=
  if cb = n.bbId then n.phi_override.getD cb else cb

/-- Append an undef incoming value for the fake continue block to a phi
(cfg_translator.cpp:592-596); other instructions are unchanged. -/
def addUndefIncoming (fcId : BBId) : Inst → Inst
  | .phi pid inc => .phi pid (inc ++ [(fcId, Value.undef)])
  | j => j

/-- Merge-annotation emission for one node (cfg_translator.cpp:496-614).
`none` models `llvm_unreachable` and insertions that would crash.  Release
semantics is used for plain asserts: the exit-selection special case on a
switch returns without annotating, and a missing default case falls through
to the crash of the subsequent insertion. -/
def annotate_node (f : Func) (fresh : Nat) (entryId : BBId) (n : CFGNode) :
    Option (Func × Nat) :=
  match n.merge with
  | .MNone => some (f, fresh)
  | .MSelection =>
      if n.selection_merge_block = none ∧ n.selection_merge_exit then
        match n.term with
        | .condition _ _ _ =>
            match (blockOf f n.bbId).bind (fun blk => getTerm blk) with
            | some (.condBr _ s0 s1) =>
                if endsUnreach f s0 && !endsUnreach f s1 then
                  (create_selection_merge f n.bbId s1).map (fun f1 => (f1, fresh))
                else if !endsUnreach f s0 && endsUnreach f s1 then
                  (create_selection_merge f n.bbId s0).map (fun f1 => (f1, fresh))
                else some (f, fresh)
            | _ => none
        | .switch _ _ => some (f, fresh)
        | _ => none
      else
        match n.term with
        | .condition _ _ _ | .switch _ _ =>
            match n.selection_merge_block with
            | some smb =>
                (create_selection_merge f n.bbId smb).map (fun f1 => (f1, fresh))
            | none =>
                let fmId := fresh
                let fm : BB := ⟨fmId, n.name ++ ".fake_merge", [.term .unreach]⟩
                let f1 := insertBlockBefore f n.bbId fm
                (create_selection_merge f1 n.bbId fmId).map (fun f2 => (f2, fresh + 1))
        | _ => none
  | .MLoop =>
      match n.loop_merge_block with
      | some mb =>
          match n.loop_continue_block with
          | some cb =>
              (create_loop_merge f n.bbId mb (continueArg n cb)).map
                (fun f1 => (f1, fresh))
          | none =>
              -- no natural continue: synthesize a fake continue block, and
              -- first a fake entry when the header is the function entry
              let fe :=
                if n.bbId = entryId then
                  (insertBlockBefore f n.bbId
                    ⟨fresh, n.name ++ ".new_entry.fake_continue",
                      [.term (.br n.bbId)]⟩, fresh + 1)
                else (f, fresh)
              let fcId := fe.2
              let f2 := insertBlockBefore fe.1 n.bbId
                  ⟨fcId, n.name ++ ".fake_continue", [.term (.br n.bbId)]⟩
              match create_loop_merge f2 n.bbId mb fcId with
              | none => none
              | some f3 =>
                  some (mapBlock f3 n.bbId (fun x =>
                    { x with instrs := x.instrs.map (addUndefIncoming fcId) }),
                    fe.2 + 1)
      | none =>
          match n.loop_continue_block with
          | some cb =>
              let fmId := fresh
              let fm : BB := ⟨fmId, n.name ++ ".fake_merge", [.term .unreach]⟩
              let f1 := insertBlockAfter f n.bbId fm
              (create_loop_merge f1 n.bbId fmId (continueArg n cb)).map
                (fun f2 => (f2, fresh + 1))
          | none => none

/-- Fold of the merge-annotation step over the pool. -/
def add_annotations_aux (f : Func) (fresh : Nat) (entryId : BBId) :
    List CFGNode → Option (Func × Nat)
  | [] => some (f, fresh)
  | n :: rest =>
      match annotate_node f fresh entryId n with
      | none => none
      | some (f1, fr1) => add_annotations_aux f1 fr1 entryId rest

/-- The merge-annotation phase of `cfg_to_llvm_ir`. -/
def add_annotations (st : EmitState) : Option EmitState :=
  (add_annotations_aux st.F st.fresh st.entry st.pool).map
    (fun p => { st with F := p.1, fresh := p.2 })

/-- Entry update (cfg_translator.cpp:269-276): when the updated entry block
differs from the recorded entry, its block is unlinked and re-inserted at
the front of the host function's block list. -/
def move_entry (st : EmitState) (updated : BBId) : EmitState :=
  if st.entry = updated then { st with entry := updated }
  else
    match st.F.find? (fun b => b.id = updated) with
    | some blk =>
        { st with F := blk :: st.F.eraseP (fun b => b.id = updated),
                  entry := updated }
    | none => { st with entry := updated }

/-- `cfg_to_llvm_ir` (cfg_translator.cpp:269-616): entry move, terminator
update, reachability, phi update, pruning, and (optionally) merge
annotation. -/
def cfg_to_llvm_ir (st : EmitState) (updated_entry : BBId)
    (add_merge : Bool) : Option EmitState :=
  let st1 := move_entry st updated_entry
  (update_terminators st1).bind fun st2 =>
  let reach := computeReach st2.F st2.entry
  (update_phis st2 reach).bind fun st3 =>
  let st4 := prune st3 reach
  if add_merge then add_annotations st4 else some st4

/-! ### Specification-side notions -/

/-- Reachability by forward successor edges, as a relation. -/
def ReachSpec (f : Func) (a b : BBId) : Prop :=
  Relation.ReflTransGen (fun x y => y ∈ hostSuccs f x) a b

/-- The rewrite applied to an incoming block by phi emission: the source
node's `phi_override` when set, the block itself otherwise. -/
def overrideOf (pool : List CFGNode) (b : BBId) : BBId :=
  match findNode pool b with
  | some n => n.phi_override.getD b
  | none => b

/-- First-occurrence deduplication of a list of block identities. -/
def uniqAux : List BBId → List BBId → List BBId
  | [], _ => []
  | p :: rest, seen =>
      if p ∈ seen then uniqAux rest seen else p :: uniqAux rest (p :: seen)

/-! ### Helper lemmas -/

theorem insertBeforeLastInst_spec (init : List Inst) (t i : Inst) :
    insertBeforeLastInst (init ++ [t]) i = init ++ [i, t] := by
  induction init with
  | nil => rfl
  | cons a rest ih =>
      cases rest with
      | nil => rfl
      | cons b r => simpa [insertBeforeLastInst] using ih

theorem blockOf_mapBlock_self (f : Func) (b : BBId) (g : BB → BB)
    (hg : ∀ x, (g x).id = x.id) :
    blockOf (mapBlock f b g) b = (blockOf f b).map g := by
  induction f with
  | nil => rfl
  | cons y rest ih =>
      simp only [blockOf, mapBlock, List.map_cons] at ih ⊢
      by_cases hy : y.id = b
      · rw [if_pos hy]
        rw [List.find?_cons_of_pos _ (by simp [hg, hy]),
            List.find?_cons_of_pos _ (by simp [hy])]
        rfl
      · rw [if_neg hy]
        rw [List.find?_cons_of_neg _ (by simp [hy]),
            List.find?_cons_of_neg _ (by simp [hy])]
        exact ih

theorem blockOf_mapBlock_ne (f : Func) (b x : BBId) (g : BB → BB)
    (hg : ∀ y, (g y).id = y.id) (hx : x ≠ b) :
    blockOf (mapBlock f b g) x = blockOf f x := by
  induction f with
  | nil => rfl
  | cons y rest ih =>
      simp only [blockOf, mapBlock, List.map_cons] at ih ⊢
      by_cases hy : y.id = b
      · rw [List.find?_cons_of_neg _ (by rw [if_pos hy]; simp [hg, hy]; exact fun h => hx h.symm),
            List.find?_cons_of_neg _ (by simp [hy]; exact fun h => hx h.symm)]
        exact ih
      · rw [if_neg hy]
        by_cases hyx : y.id = x
        · rw [List.find?_cons_of_pos _ (by simp [hyx]),
              List.find?_cons_of_pos _ (by simp [hyx])]
        · rw [List.find?_cons_of_neg _ (by simp [hyx]),
              List.find?_cons_of_neg _ (by simp [hyx])]
          exact ih

theorem blockOf_mem {f : Func} {x : BBId} {blk : BB}
    (h : blockOf f x = some blk) : blk ∈ f ∧ blk.id = x := by
  refine ⟨List.mem_of_find?_eq_some h, ?_⟩
  simpa using List.find?_some h

theorem insertBeforeTermInst_self {f : Func} {b : BBId} {blk : BB}
    {init : List Inst} {t0 : HostTerm} (i : Inst)
    (hb : blockOf f b = some blk) (hi : blk.instrs = init ++ [.term t0]) :
    ∃ f', insertBeforeTermInst f b i = some f' ∧
      blockOf f' b = some { blk with instrs := init ++ [i, .term t0] } ∧
      ∀ x, x ≠ b → blockOf f' x = blockOf f x := by
  have heq : insertBeforeTermInst f b i =
      some (mapBlock f b
        (fun x => { x with instrs := insertBeforeLastInst x.instrs i })) := by
    simp [insertBeforeTermInst, hb, hi, List.getLast?_concat]
  refine ⟨_, heq, ?_, ?_⟩
  · rw [blockOf_mapBlock_self f b
          (fun x => { x with instrs := insertBeforeLastInst x.instrs i })
          (fun x => rfl), hb]
    simp [hi, insertBeforeLastInst_spec]
  · intro x hx
    exact blockOf_mapBlock_ne _ _ _ _ (fun y => rfl) hx

theorem blockOf_insertBlockAfter_ne (f : Func) (t : BBId) (nb : BB) (x : BBId)
    (hx : nb.id ≠ x) : blockOf (insertBlockAfter f t nb) x = blockOf f x := by
  induction f with
  | nil =>
      show List.find? _ [nb] = List.find? _ []
      rw [List.find?_cons_of_neg _ (by simpa using hx)]
  | cons y rest ih =>
      by_cases hy : y.id = t
      · simp only [insertBlockAfter, if_pos hy, blockOf]
        by_cases hyx : y.id = x
        · rw [List.find?_cons_of_pos _ (by simpa using hyx),
              List.find?_cons_of_pos _ (by simpa using hyx)]
        · rw [List.find?_cons_of_neg _ (by simpa using hyx),
              List.find?_cons_of_neg _ (by simpa using hx),
              List.find?_cons_of_neg _ (by simpa using hyx)]
      · simp only [insertBlockAfter, if_neg hy, blockOf] at ih ⊢
        by_cases hyx : y.id = x
        · rw [List.find?_cons_of_pos _ (by simpa using hyx),
              List.find?_cons_of_pos _ (by simpa using hyx)]
        · rw [List.find?_cons_of_neg _ (by simpa using hyx),
              List.find?_cons_of_neg _ (by simpa using hyx)]
          exact ih

theorem blockOf_insertBlockAfter_self (f : Func) (t : BBId) (nb : BB)
    (hfr : nb.id ∉ bbIds f) :
    blockOf (insertBlockAfter f t nb) nb.id = some nb := by
  induction f with
  | nil =>
      show List.find? _ [nb] = some nb
      rw [List.find?_cons_of_pos _ (by simp)]
  | cons y rest ih =>
      have hy0 : ¬ y.id = nb.id := by
        intro h
        exact hfr (by simp [bbIds, h.symm])
      have hfr' : nb.id ∉ bbIds rest := by
        intro h
        exact hfr (by simp [bbIds] at h ⊢; exact Or.inr h)
      by_cases hy : y.id = t
      · simp only [insertBlockAfter, if_pos hy, blockOf]
        rw [List.find?_cons_of_neg _ (by simpa using hy0),
            List.find?_cons_of_pos _ (by simp)]
      · simp only [insertBlockAfter, if_neg hy, blockOf] at *
        rw [List.find?_cons_of_neg _ (by simpa using hy0)]
        exact ih hfr'

theorem blockOf_insertBlockBefore_ne (f : Func) (t : BBId) (nb : BB) (x : BBId)
    (hx : nb.id ≠ x) : blockOf (insertBlockBefore f t nb) x = blockOf f x := by
  induction f with
  | nil =>
      show List.find? _ [nb] = List.find? _ []
      rw [List.find?_cons_of_neg _ (by simpa using hx)]
  | cons y rest ih =>
      by_cases hy : y.id = t
      · simp only [insertBlockBefore, if_pos hy, blockOf]
        rw [List.find?_cons_of_neg _ (by simpa using hx)]
      · simp only [insertBlockBefore, if_neg hy, blockOf] at ih ⊢
        by_cases hyx : y.id = x
        · rw [List.find?_cons_of_pos _ (by simpa using hyx),
              List.find?_cons_of_pos _ (by simpa using hyx)]
        · rw [List.find?_cons_of_neg _ (by simpa using hyx),
              List.find?_cons_of_neg _ (by simpa using hyx)]
          exact ih

theorem blockOf_insertBlockBefore_self (f : Func) (t : BBId) (nb : BB)
    (hfr : nb.id ∉ bbIds f) :
    blockOf (insertBlockBefore f t nb) nb.id = some nb := by
  induction f with
  | nil =>
      show List.find? _ [nb] = some nb
      rw [List.find?_cons_of_pos _ (by simp)]
  | cons y rest ih =>
      have hy0 : ¬ y.id = nb.id := by
        intro h
        exact hfr (by simp [bbIds, h.symm])
      have hfr' : nb.id ∉ bbIds rest := by
        intro h
        exact hfr (by simp [bbIds] at h ⊢; exact Or.inr h)
      by_cases hy : y.id = t
      · simp only [insertBlockBefore, if_pos hy, blockOf]
        rw [List.find?_cons_of_pos _ (by simp)]
      · simp only [insertBlockBefore, if_neg hy, blockOf] at *
        rw [List.find?_cons_of_neg _ (by simpa using hy0)]
        exact ih hfr'

theorem find?_eraseP_perm {p : BB → Bool} {l : List BB} {b : BB}
    (h : l.find? p = some b) : l.Perm (b :: l.eraseP p) := by
  induction l with
  | nil => simp at h
  | cons a rest ih =>
      by_cases ha : p a
      · rw [List.find?_cons_of_pos _ ha] at h
        injection h with h
        subst h
        rw [List.eraseP_cons_of_pos ha]
      · rw [List.find?_cons_of_neg _ ha] at h
        rw [List.eraseP_cons_of_neg ha]
        exact ((ih h).cons a).trans (List.Perm.swap b a _)

theorem getTerm_of_concat {blk : BB} {init : List Inst} {t0 : HostTerm}
    (hbi : blk.instrs = init ++ [.term t0]) : getTerm blk = some t0 := by
  simp [getTerm, hbi, List.getLast?_concat]

theorem create_loop_merge_spec {f : Func} {h mb cb : BBId} {hdr hm hc : BB}
    {ih0 im ic : List Inst} {th tm tc : HostTerm}
    (hne1 : h ≠ mb) (hne2 : h ≠ cb) (hne3 : mb ≠ cb)
    (hbh : blockOf f h = some hdr) (hbi : hdr.instrs = ih0 ++ [.term th])
    (hbm : blockOf f mb = some hm) (hmi : hm.instrs = im ++ [.term tm])
    (hbc : blockOf f cb = some hc) (hci : hc.instrs = ic ++ [.term tc]) :
    ∃ f', create_loop_merge f h mb cb = some f' ∧
      blockOf f' h =
        some { hdr with instrs :=
          ih0 ++ [.call "floor.loop_merge" [mb, cb], .term th] } ∧
      blockOf f' mb =
        some { hm with instrs :=
          im ++ [.call "floor.merge_block" [], .term tm] } ∧
      blockOf f' cb =
        some { hc with instrs :=
          ic ++ [.call "floor.continue_block" [], .term tc] } ∧
      ∀ x, x ≠ h → x ≠ mb → x ≠ cb → blockOf f' x = blockOf f x := by
  obtain ⟨f1, he1, hs1, ho1⟩ :=
    insertBeforeTermInst_self (.call "floor.loop_merge" [mb, cb]) hbh hbi
  have hm1 : blockOf f1 mb = some hm := by rw [ho1 mb (Ne.symm hne1)]; exact hbm
  obtain ⟨f2, he2, hs2, ho2⟩ :=
    insertBeforeTermInst_self (.call "floor.merge_block" []) hm1 hmi
  have hc2 : blockOf f2 cb = some hc := by
    rw [ho2 cb (Ne.symm hne3), ho1 cb (Ne.symm hne2)]; exact hbc
  obtain ⟨f3, he3, hs3, ho3⟩ :=
    insertBeforeTermInst_self (.call "floor.continue_block" []) hc2 hci
  refine ⟨f3, ?_, ?_, ?_, hs3, ?_⟩
  · simp only [create_loop_merge, insert_merge_block_marker,
      insert_continue_block_marker, he1, Option.some_bind, he2, he3]
  · rw [ho3 h hne2, ho2 h hne1]; exact hs1
  · rw [ho3 mb hne3]; exact hs2
  · intro x hx1 hx2 hx3
    rw [ho3 x hx3, ho2 x hx2, ho1 x hx1]

theorem create_selection_merge_spec {f : Func} {h mb : BBId} {hdr hm : BB}
    {ih0 im : List Inst} {th tm : HostTerm}
    (hne1 : h ≠ mb)
    (hbh : blockOf f h = some hdr) (hbi : hdr.instrs = ih0 ++ [.term th])
    (hbm : blockOf f mb = some hm) (hmi : hm.instrs = im ++ [.term tm]) :
    ∃ g', create_selection_merge f h mb = some g' ∧
      blockOf g' h =
        some { hdr with instrs :=
          ih0 ++ [.call "floor.selection_merge" [mb], .term th] } ∧
      blockOf g' mb =
        some { hm with instrs :=
          im ++ [.call "floor.merge_block" [], .term tm] } ∧
      ∀ x, x ≠ h → x ≠ mb → blockOf g' x = blockOf f x := by
  obtain ⟨f1, he1, hs1, ho1⟩ :=
    insertBeforeTermInst_self (.call "floor.selection_merge" [mb]) hbh hbi
  have hm1 : blockOf f1 mb = some hm := by rw [ho1 mb (Ne.symm hne1)]; exact hbm
  obtain ⟨f2, he2, hs2, ho2⟩ :=
    insertBeforeTermInst_self (.call "floor.merge_block" []) hm1 hmi
  refine ⟨f2, ?_, ?_, hs2, ?_⟩
  · simp only [create_selection_merge, insert_merge_block_marker,
      he1, Option.some_bind, he2]
  · rw [ho2 h hne1]; exact hs1
  · intro x hx1 hx2
    rw [ho2 x hx2, ho1 x hx1]

/-! ### Claim theorems -/

/-- Claim C8: terminator classification is total exactly over the six
supported variants.  For any host terminator that is not a conditional
branch, unconditional branch, return, unreachable (where a preceding
`floor.discard_fragment` call distinguishes `Kill` from `Unreachable`) or
switch, `get_terminator_type` is fatal (`assert(false); abort()`, modelled
by `none`), with no recovery path. -/
theorem C8_unsupported_terminator_fatal :
    ∀ (prev : Option Inst) (t : HostTerm),
      (get_terminator_type prev t = none ↔ supportedTerm t = false) ∧
      (get_terminator_type prev HostTerm.unreach = some TermType.Kill ↔
        isDiscardCall prev = true) := by
  intro prev t
  constructor
  · cases t
    case unreach =>
      by_cases h : isDiscardCall prev <;>
        simp [get_terminator_type, supportedTerm, h]
    all_goals simp [get_terminator_type, supportedTerm]
  · by_cases h : isDiscardCall prev <;> simp [get_terminator_type, h]

/-- Claim C10: when `cfg_to_llvm_ir` receives an updated entry block
different from the recorded entry, the updated entry's block is unlinked
and re-inserted at the front of the block list (so it becomes the
function's entry block and the block list is a permutation of the old one);
when the updated entry equals the recorded entry, the block list is left
unchanged by this step. -/
theorem C10_entry_block_move (st : EmitState) (e : BBId) (blk : BB) :
    (st.entry ≠ e → st.F.find? (fun b => b.id = e) = some blk →
      (move_entry st e).F.head? = some blk ∧ blk.id = e ∧
      (move_entry st e).F.Perm st.F ∧ (move_entry st e).entry = e) ∧
    (st.entry = e → (move_entry st e).F = st.F ∧ (move_entry st e).entry = e) := by
  constructor
  · intro hne hfind
    have hid : blk.id = e := by simpa using List.find?_some hfind
    unfold move_entry
    rw [if_neg hne, hfind]
    exact ⟨rfl, hid, (find?_eraseP_perm hfind).symm, rfl⟩
  · intro heq
    unfold move_entry
    rw [if_pos heq]
    exact ⟨rfl, rfl⟩

/-- Concrete instance of the entry-move theorem. -/
theorem C10_entry_block_move_witness :
    (move_entry ⟨[⟨0, "a", [.term .unreach]⟩, ⟨1, "b", [.term .unreach]⟩],
        [], 0, 2⟩ 1).F.head? = some ⟨1, "b", [.term .unreach]⟩ ∧
      (⟨1, "b", [.term .unreach]⟩ : BB).id = 1 ∧
      (move_entry ⟨[⟨0, "a", [.term .unreach]⟩, ⟨1, "b", [.term .unreach]⟩],
        [], 0, 2⟩ 1).F.Perm
        [⟨0, "a", [.term .unreach]⟩, ⟨1, "b", [.term .unreach]⟩] ∧
      (move_entry ⟨[⟨0, "a", [.term .unreach]⟩, ⟨1, "b", [.term .unreach]⟩],
        [], 0, 2⟩ 1).entry = 1 :=
  (C10_entry_block_move
      ⟨[⟨0, "a", [.term .unreach]⟩, ⟨1, "b", [.term .unreach]⟩], [], 0, 2⟩ 1
      ⟨1, "b", [.term .unreach]⟩).1 (by decide) (by decide)

/-- Counterexample to claim C1 as stated: the `merge_block` marker is not
inserted at the first position of the target block; for a merge block whose
instructions are an operation followed by a branch, the marker lands
between them, immediately before the terminator. -/
theorem C1_counterexample :
    insert_merge_block_marker [⟨0, "m", [.op 0, .term (.br 1)]⟩] 0 =
      some [⟨0, "m", [.op 0, .call "floor.merge_block" [], .term (.br 1)]⟩] ∧
    ([.op 0, .call "floor.merge_block" [], .term (.br 1)] : List Inst).head? ≠
      some (.call "floor.merge_block" []) := by
  constructor
  · rfl
  · decide

/-- Claim C1 (amended): for every structured header emitted with a merge
annotation, the `loop_merge` or `selection_merge` marker call is inserted
immediately before the header's terminator, and the `merge_block` marker
(and, for loops, the `continue_block` marker) is inserted immediately
before the terminator of the merge (respectively continue) target block
(not at the first position of that block). -/
theorem C1_marker_positions (f : Func) (h mb cb : BBId) (hdr hm hc : BB)
    (ih0 im ic : List Inst) (th tm tc : HostTerm)
    (hne1 : h ≠ mb) (hne2 : h ≠ cb) (hne3 : mb ≠ cb)
    (hbh : blockOf f h = some hdr) (hbi : hdr.instrs = ih0 ++ [.term th])
    (hbm : blockOf f mb = some hm) (hmi : hm.instrs = im ++ [.term tm])
    (hbc : blockOf f cb = some hc) (hci : hc.instrs = ic ++ [.term tc]) :
    (∃ f', create_loop_merge f h mb cb = some f' ∧
      blockOf f' h =
        some { hdr with instrs :=
          ih0 ++ [.call "floor.loop_merge" [mb, cb], .term th] } ∧
      blockOf f' mb =
        some { hm with instrs :=
          im ++ [.call "floor.merge_block" [], .term tm] } ∧
      blockOf f' cb =
        some { hc with instrs :=
          ic ++ [.call "floor.continue_block" [], .term tc] }) ∧
    (∃ g', create_selection_merge f h mb = some g' ∧
      blockOf g' h =
        some { hdr with instrs :=
          ih0 ++ [.call "floor.selection_merge" [mb], .term th] } ∧
      blockOf g' mb =
        some { hm with instrs :=
          im ++ [.call "floor.merge_block" [], .term tm] }) := by
  constructor
  · obtain ⟨f3, he, hsh, hsm, hsc, _⟩ :=
      create_loop_merge_spec hne1 hne2 hne3 hbh hbi hbm hmi hbc hci
    exact ⟨f3, he, hsh, hsm, hsc⟩
  · obtain ⟨g2, he, hsh, hsm, _⟩ :=
      create_selection_merge_spec hne1 hbh hbi hbm hmi
    exact ⟨g2, he, hsh, hsm⟩

/-- Concrete instance of the marker-position theorem. -/
theorem C1_marker_positions_witness :
    (∃ f', create_loop_merge
        [⟨0, "h", [.op 7, .term (.condBr (.var 1) 1 2)]⟩,
         ⟨1, "m", [.op 8, .term (.ret none)]⟩,
         ⟨2, "c", [.op 9, .term (.br 0)]⟩] 0 1 2 = some f' ∧
      blockOf f' 0 = some ⟨0, "h",
        [.op 7, .call "floor.loop_merge" [1, 2],
         .term (.condBr (.var 1) 1 2)]⟩ ∧
      blockOf f' 1 = some ⟨1, "m",
        [.op 8, .call "floor.merge_block" [], .term (.ret none)]⟩ ∧
      blockOf f' 2 = some ⟨2, "c",
        [.op 9, .call "floor.continue_block" [], .term (.br 0)]⟩) ∧
    (∃ g', create_selection_merge
        [⟨0, "h", [.op 7, .term (.condBr (.var 1) 1 2)]⟩,
         ⟨1, "m", [.op 8, .term (.ret none)]⟩,
         ⟨2, "c", [.op 9, .term (.br 0)]⟩] 0 1 = some g' ∧
      blockOf g' 0 = some ⟨0, "h",
        [.op 7, .call "floor.selection_merge" [1],
         .term (.condBr (.var 1) 1 2)]⟩ ∧
      blockOf g' 1 = some ⟨1, "m",
        [.op 8, .call "floor.merge_block" [], .term (.ret none)]⟩) :=
  C1_marker_positions
    [⟨0, "h", [.op 7, .term (.condBr (.var 1) 1 2)]⟩,
     ⟨1, "m", [.op 8, .term (.ret none)]⟩,
     ⟨2, "c", [.op 9, .term (.br 0)]⟩] 0 1 2
    ⟨0, "h", [.op 7, .term (.condBr (.var 1) 1 2)]⟩
    ⟨1, "m", [.op 8, .term (.ret none)]⟩
    ⟨2, "c", [.op 9, .term (.br 0)]⟩
    [.op 7] [.op 8] [.op 9] (.condBr (.var 1) 1 2) (.ret none) (.br 0)
    (by decide) (by decide) (by decide)
    (by decide) (by decide) (by decide) (by decide) (by decide) (by decide)

theorem emitPhiIncoming_cons (pool : List CFGNode) (reach : List BBId)
    (b : BBId) (v : Value) (rest : List (BBId × Value)) :
    emitPhiIncoming pool reach ((b, v) :: rest) =
      if overrideOf pool b ∈ reach then
        (overrideOf pool b, v) :: emitPhiIncoming pool reach rest
      else emitPhiIncoming pool reach rest := rfl

/-- Claim C5: at emission, every phi incoming entry whose source node has a
non-null `phi_override` is emitted with the override block as its incoming
block instead of the node's own block, and entries whose source node has no
override keep the node's block (in both cases provided the chosen block is
reachable, since only reachable incoming blocks are re-added); conversely
every emitted entry is an original entry with its block rewritten through
the override map. -/
theorem C5_phi_override_rewrite (pool : List CFGNode) (reach : List BBId)
    (inc : List (BBId × Value)) :
    (∀ b v, (b, v) ∈ inc → ∀ n, findNode pool b = some n →
      (∀ ov, n.phi_override = some ov → ov ∈ reach →
        (ov, v) ∈ emitPhiIncoming pool reach inc) ∧
      (n.phi_override = none → b ∈ reach →
        (b, v) ∈ emitPhiIncoming pool reach inc)) ∧
    (∀ e ∈ emitPhiIncoming pool reach inc,
      e.1 ∈ reach ∧ ∃ b0, (b0, e.2) ∈ inc ∧ e.1 = overrideOf pool b0) := by
  induction inc with
  | nil => exact ⟨fun b v h => absurd h (by simp), fun e h => absurd h (by simp [emitPhiIncoming])⟩
  | cons hd rest ih =>
      obtain ⟨b0, v0⟩ := hd
      rw [emitPhiIncoming_cons]
      constructor
      · intro b v hmem n hfind
        rcases List.mem_cons.mp hmem with hhd | htl
        · injection hhd with hb hv
          subst hb; subst hv
          have hov : overrideOf pool b = n.phi_override.getD b := by
            simp [overrideOf, hfind]
          constructor
          · intro ov hovr hreach
            have hoveq : overrideOf pool b = ov := by rw [hov, hovr]; rfl
            rw [hoveq, if_pos hreach]
            exact List.mem_cons_self _ _
          · intro hnone hreach
            have hoveq : overrideOf pool b = b := by rw [hov, hnone]; rfl
            rw [hoveq, if_pos hreach]
            exact List.mem_cons_self _ _
        · have := (ih.1 b v htl n hfind)
          constructor
          · intro ov hovr hreach
            have hmem' := this.1 ov hovr hreach
            split
            · exact List.mem_cons_of_mem _ hmem'
            · exact hmem'
          · intro hnone hreach
            have hmem' := this.2 hnone hreach
            split
            · exact List.mem_cons_of_mem _ hmem'
            · exact hmem'
      · intro e he
        by_cases hreach : overrideOf pool b0 ∈ reach
        · rw [if_pos hreach] at he
          rcases List.mem_cons.mp he with hhd | htl
          · subst hhd
            exact ⟨hreach, b0, List.mem_cons_self _ _, rfl⟩
          · obtain ⟨h1, b1, h2, h3⟩ := ih.2 e htl
            exact ⟨h1, b1, List.mem_cons_of_mem _ h2, h3⟩
        · rw [if_neg hreach] at he
          obtain ⟨h1, b1, h2, h3⟩ := ih.2 e he
          exact ⟨h1, b1, List.mem_cons_of_mem _ h2, h3⟩

/-- Concrete instance of the phi-override theorem: an entry from a node
with `phi_override = some 9` is emitted with block 9. -/
theorem C5_phi_override_rewrite_witness :
    ((9 : BBId), Value.var 3) ∈
      emitPhiIncoming
        [⟨5, "x", .MNone, none, none, none, false, some 9, .unreach, []⟩]
        [9] [(5, Value.var 3)] :=
  ((C5_phi_override_rewrite
      [⟨5, "x", .MNone, none, none, none, false, some 9, .unreach, []⟩]
      [9] [(5, Value.var 3)]).1 5 (Value.var 3) (by decide)
      ⟨5, "x", .MNone, none, none, none, false, some 9, .unreach, []⟩
      (by decide)).1 9 rfl (by decide)

theorem lookupIncoming_cons (b0 : BBId) (v0 : Value)
    (rest : List (BBId × Value)) (b : BBId) :
    lookupIncoming ((b0, v0) :: rest) b =
      if b0 = b then some v0 else lookupIncoming rest b := by
  unfold lookupIncoming
  by_cases h : b0 = b
  · rw [List.find?_cons_of_pos _ (by simpa using h), if_pos h]
    rfl
  · rw [List.find?_cons_of_neg _ (by simpa using h), if_neg h]

theorem importPhi_lookup (l : List (BBId × Value)) :
    ∀ seen b, b ∉ seen →
      lookupIncoming (importPhiIncoming l seen) b = lookupIncoming l b := by
  induction l with
  | nil => intro seen b _; rfl
  | cons hd rest ih =>
      obtain ⟨b0, v0⟩ := hd
      intro seen b hb
      by_cases h0 : b0 ∈ seen
      · have hne : ¬ b0 = b := fun h => hb (h ▸ h0)
        rw [importPhiIncoming, if_pos h0, ih seen b hb,
            lookupIncoming_cons, if_neg hne]
      · rw [importPhiIncoming, if_neg h0]
        by_cases heq : b0 = b
        · rw [lookupIncoming_cons, lookupIncoming_cons, if_pos heq, if_pos heq]
        · have hb' : b ∉ b0 :: seen := by
            intro h
            rcases List.mem_cons.mp h with h | h
            · exact heq h.symm
            · exact hb h
          rw [lookupIncoming_cons, lookupIncoming_cons, if_neg heq, if_neg heq]
          exact ih (b0 :: seen) b hb'

theorem importPhi_blocks (l : List (BBId × Value)) :
    ∀ seen, ((importPhiIncoming l seen).map Prod.fst).Nodup ∧
      (∀ b, b ∈ (importPhiIncoming l seen).map Prod.fst ↔
        b ∈ l.map Prod.fst ∧ b ∉ seen) := by
  induction l with
  | nil => intro seen; simp [importPhiIncoming]
  | cons hd rest ih =>
      obtain ⟨b0, v0⟩ := hd
      intro seen
      by_cases h0 : b0 ∈ seen
      · rw [importPhiIncoming, if_pos h0]
        refine ⟨(ih seen).1, fun b => ?_⟩
        rw [(ih seen).2 b]
        constructor
        · rintro ⟨h1, h2⟩
          exact ⟨by simp [h1], h2⟩
        · rintro ⟨h1, h2⟩
          rcases (by simpa using h1 : b = b0 ∨ b ∈ rest.map Prod.fst) with h | h
          · exact absurd (h ▸ h0) h2
          · exact ⟨h, h2⟩
      · rw [importPhiIncoming, if_neg h0]
        obtain ⟨ihn, ihm⟩ := ih (b0 :: seen)
        constructor
        · refine List.nodup_cons.mpr ⟨?_, ihn⟩
          intro hmem
          have := (ihm b0).mp hmem
          exact this.2 (List.mem_cons_self _ _)
        · intro b
          simp only [List.map_cons, List.mem_cons]
          rw [ihm b]
          constructor
          · rintro (h | ⟨h1, h2⟩)
            · exact ⟨Or.inl h, h ▸ h0⟩
            · exact ⟨Or.inr h1, fun hc => h2 (List.mem_cons_of_mem _ hc)⟩
          · rintro ⟨h1 | h1, h2⟩
            · exact Or.inl h1
            · by_cases hb0 : b = b0
              · exact Or.inl hb0
              · exact Or.inr ⟨h1, by
                  intro hc
                  rcases List.mem_cons.mp hc with hc | hc
                  · exact hb0 hc
                  · exact h2 hc⟩

theorem lookupIncoming_isSome (inc : List (BBId × Value)) (b : BBId) :
    (lookupIncoming inc b).isSome = true ↔ b ∈ inc.map Prod.fst := by
  induction inc with
  | nil => simp [lookupIncoming]
  | cons hd rest ih =>
      obtain ⟨b0, v0⟩ := hd
      rw [lookupIncoming_cons]
      by_cases heq : b0 = b
      · simp [heq]
      · rw [if_neg heq]
        simp only [List.map_cons, List.mem_cons]
        rw [ih]
        constructor
        · exact Or.inr
        · rintro (h | h)
          · exact absurd h.symm heq
          · exact h

theorem uniqAux_mem (preds : List BBId) :
    ∀ seen x, x ∈ uniqAux preds seen ↔ x ∈ preds ∧ x ∉ seen := by
  induction preds with
  | nil => intro seen x; simp [uniqAux]
  | cons p rest ih =>
      intro seen x
      by_cases hp : p ∈ seen
      · rw [uniqAux, if_pos hp, ih seen x]
        constructor
        · rintro ⟨h1, h2⟩; exact ⟨List.mem_cons_of_mem _ h1, h2⟩
        · rintro ⟨h1, h2⟩
          rcases List.mem_cons.mp h1 with h | h
          · exact absurd (h ▸ hp) h2
          · exact ⟨h, h2⟩
      · rw [uniqAux, if_neg hp]
        constructor
        · intro h
          rcases List.mem_cons.mp h with h | h
          · exact ⟨h ▸ List.mem_cons_self _ _, h ▸ hp⟩
          · obtain ⟨h1, h2⟩ := (ih (p :: seen) x).mp h
            exact ⟨List.mem_cons_of_mem _ h1,
              fun hc => h2 (List.mem_cons_of_mem _ hc)⟩
        · rintro ⟨h1, h2⟩
          by_cases hxp : x = p
          · exact hxp ▸ List.mem_cons_self _ _
          · rcases List.mem_cons.mp h1 with h | h
            · exact absurd h hxp
            · exact List.mem_cons_of_mem _ ((ih (p :: seen) x).mpr
                ⟨h, by
                  intro hc
                  rcases List.mem_cons.mp hc with hc | hc
                  · exact hxp hc
                  · exact h2 hc⟩)

theorem uniqAux_nodup (preds : List BBId) :
    ∀ seen, (uniqAux preds seen).Nodup := by
  induction preds with
  | nil => intro seen; simp [uniqAux]
  | cons p rest ih =>
      intro seen
      by_cases hp : p ∈ seen
      · rw [uniqAux, if_pos hp]; exact ih seen
      · rw [uniqAux, if_neg hp]
        refine List.nodup_cons.mpr ⟨?_, ih (p :: seen)⟩
        intro hmem
        exact ((uniqAux_mem rest (p :: seen) p).mp hmem).2
          (List.mem_cons_self _ _)

theorem uniqAux_length_le (preds : List BBId) :
    ∀ seen, (uniqAux preds seen).length ≤ preds.length := by
  induction preds with
  | nil => intro seen; simp [uniqAux]
  | cons p rest ih =>
      intro seen
      by_cases hp : p ∈ seen
      · rw [uniqAux, if_pos hp]
        exact Nat.le_succ_of_le (ih seen)
      · rw [uniqAux, if_neg hp]
        simpa using Nat.succ_le_succ (ih (p :: seen))

theorem scanPreds_cons (reach : List BBId) (inc : List (BBId × Value))
    (p : BBId) (rest : List BBId) (seen : List BBId) :
    scanPreds reach inc (p :: rest) seen =
      if p ∈ reach then
        match lookupIncoming inc p with
        | none => none
        | some v =>
            if p ∈ seen then
              (scanPreds reach inc rest seen).map (fun l => (p, v) :: l)
            else scanPreds reach inc rest (p :: seen)
      else scanPreds reach inc rest seen := rfl

theorem scanPreds_cons_dup {reach : List BBId} {inc : List (BBId × Value)}
    {p : BBId} {v : Value} (rest : List BBId) {seen : List BBId}
    (hpr : p ∈ reach) (hv : lookupIncoming inc p = some v) (hp : p ∈ seen) :
    scanPreds reach inc (p :: rest) seen =
      (scanPreds reach inc rest seen).map (fun l => (p, v) :: l) := by
  rw [scanPreds_cons, if_pos hpr, hv]
  exact if_pos hp

theorem scanPreds_cons_new {reach : List BBId} {inc : List (BBId × Value)}
    {p : BBId} {v : Value} (rest : List BBId) {seen : List BBId}
    (hpr : p ∈ reach) (hv : lookupIncoming inc p = some v) (hp : p ∉ seen) :
    scanPreds reach inc (p :: rest) seen =
      scanPreds reach inc rest (p :: seen) := by
  rw [scanPreds_cons, if_pos hpr, hv]
  exact if_neg hp

theorem scanPreds_spec (reach : List BBId) (inc : List (BBId × Value))
    (preds : List BBId) :
    ∀ seen, (∀ p ∈ preds, p ∈ reach) → (∀ p ∈ preds, p ∈ inc.map Prod.fst) →
      ∃ l, scanPreds reach inc preds seen = some l ∧
        l.length + (uniqAux preds seen).length = preds.length ∧
        ∀ e ∈ l, lookupIncoming inc e.1 = some e.2 ∧ e.1 ∈ reach := by
  induction preds with
  | nil =>
      intro seen _ _
      exact ⟨[], rfl, by simp [uniqAux], by simp⟩
  | cons p rest ih =>
      intro seen hr hl
      have hpr : p ∈ reach := hr p (List.mem_cons_self _ _)
      have hps : (lookupIncoming inc p).isSome = true :=
        (lookupIncoming_isSome inc p).mpr (hl p (List.mem_cons_self _ _))
      obtain ⟨v, hv⟩ := Option.isSome_iff_exists.mp hps
      have hr' : ∀ q ∈ rest, q ∈ reach :=
        fun q hq => hr q (List.mem_cons_of_mem _ hq)
      have hl' : ∀ q ∈ rest, q ∈ inc.map Prod.fst :=
        fun q hq => hl q (List.mem_cons_of_mem _ hq)
      by_cases hp : p ∈ seen
      · obtain ⟨l, he, hlen, hent⟩ := ih seen hr' hl'
        refine ⟨(p, v) :: l, ?_, ?_, ?_⟩
        · rw [scanPreds_cons_dup rest hpr hv hp, he]; rfl
        · rw [uniqAux, if_pos hp]
          simp only [List.length_cons]
          omega
        · intro e he'
          rcases List.mem_cons.mp he' with h | h
          · subst h; exact ⟨hv, hpr⟩
          · exact hent e h
      · obtain ⟨l, he, hlen, hent⟩ := ih (p :: seen) hr' hl'
        refine ⟨l, ?_, ?_, hent⟩
        · rw [scanPreds_cons_new rest hpr hv hp, he]
        · rw [uniqAux, if_neg hp]
          simp only [List.length_cons]
          omega

/-- Claim C4: at import, only the first occurrence of each incoming block
is kept in the phi record (the deduplicated record has no duplicate blocks,
covers the same blocks, and looks up to the first occurrence's value); at
emission, the duplicates are re-materialized: when the phi's rewritten
incoming list covers exactly the distinct predecessors, each duplicate
reachable predecessor receives an appended entry whose value equals the
value of the retained first occurrence, after which the incoming count
matches the predecessor count again. -/
theorem C4_duplicate_predecessors :
    (∀ host : List (BBId × Value),
      ((translate_phi host).map Prod.fst).Nodup ∧
      (∀ b, b ∈ (translate_phi host).map Prod.fst ↔ b ∈ host.map Prod.fst) ∧
      (∀ b, lookupIncoming (translate_phi host) b = lookupIncoming host b)) ∧
    (∀ (preds reach : List BBId) (inc : List (BBId × Value)),
      (∀ p ∈ preds, p ∈ reach) → (inc.map Prod.fst).Nodup →
      (∀ x, x ∈ inc.map Prod.fst ↔ x ∈ preds) →
      ∃ extra, rematerializePhi preds reach inc = some (inc ++ extra) ∧
        (inc ++ extra).length = preds.length ∧
        ∀ e ∈ extra, lookupIncoming inc e.1 = some e.2) := by
  constructor
  · intro host
    refine ⟨(importPhi_blocks host []).1, fun b => ?_, fun b => ?_⟩
    · simp only [translate_phi]
      rw [(importPhi_blocks host []).2 b]
      simp
    · exact importPhi_lookup host [] b (by simp)
  · intro preds reach inc hreach hnd hmem
    have hlen_eq : inc.length = (uniqAux preds []).length := by
      have h1 : (inc.map Prod.fst).Perm (uniqAux preds []) := by
        rw [List.perm_ext_iff_of_nodup hnd (uniqAux_nodup preds [])]
        intro a
        rw [hmem a, uniqAux_mem preds [] a]
        simp
      have := h1.length_eq
      simpa using this
    by_cases hgate : inc.length + 1 ≤ preds.length
    · obtain ⟨l, he, hlen, hent⟩ := scanPreds_spec reach inc preds []
        hreach (fun p hp => (hmem p).mpr hp)
      refine ⟨l, ?_, ?_, fun e he' => (hent e he').1⟩
      · rw [rematerializePhi, if_pos hgate, he]
        rfl
      · rw [List.length_append, hlen_eq]
        omega
    · refine ⟨[], ?_, ?_, by simp⟩
      · rw [rematerializePhi, if_neg hgate]
        simp
      · have h1 : (uniqAux preds []).length ≤ preds.length :=
          uniqAux_length_le preds []
        simp only [List.append_nil]
        omega

/-- Concrete instance of the duplicate-predecessor theorem: a host phi with
incoming `[(1,v10),(1,v11),(2,v12)]` imports as `[(1,v10),(2,v12)]`, and
with predecessors `[1,1,2]` emission re-materializes one entry for the
duplicate predecessor 1 carrying the first occurrence's value. -/
theorem C4_duplicate_predecessors_witness :
    (((translate_phi [(1, Value.var 10), (1, Value.var 11), (2, Value.var 12)]).map
        Prod.fst).Nodup ∧
      (∀ b, b ∈ (translate_phi
          [(1, Value.var 10), (1, Value.var 11), (2, Value.var 12)]).map Prod.fst ↔
        b ∈ ([(1, Value.var 10), (1, Value.var 11), (2, Value.var 12)] :
          List (BBId × Value)).map Prod.fst) ∧
      (∀ b, lookupIncoming (translate_phi
          [(1, Value.var 10), (1, Value.var 11), (2, Value.var 12)]) b =
        lookupIncoming [(1, Value.var 10), (1, Value.var 11), (2, Value.var 12)] b)) ∧
    (∃ extra, rematerializePhi [1, 1, 2] [1, 2]
        [(1, Value.var 10), (2, Value.var 12)] =
        some ([(1, Value.var 10), (2, Value.var 12)] ++ extra) ∧
      ([(1, Value.var 10), (2, Value.var 12)] ++ extra).length =
        ([1, 1, 2] : List BBId).length ∧
      ∀ e ∈ extra, lookupIncoming [(1, Value.var 10), (2, Value.var 12)] e.1 =
        some e.2) :=
  ⟨C4_duplicate_predecessors.1
      [(1, Value.var 10), (1, Value.var 11), (2, Value.var 12)],
   C4_duplicate_predecessors.2 [1, 1, 2] [1, 2]
      [(1, Value.var 10), (2, Value.var 12)]
      (by decide) (by decide) (by intro x; simp)⟩

/-- Claim C9: during merge-annotation emission, a `Selection` node whose
`selection_merge_block` is null, whose `selection_merge_exit` flag is set
and whose terminator record is a conditional branch is handled by examining
the host successors: when exactly one of the two ends in an `unreachable`
terminator, a `selection_merge` targeting the other successor is emitted
(together with its `merge_block` marker); when both or neither end in
`unreachable`, no annotation is emitted for that node. -/
theorem C9_exit_selection (f : Func) (fresh e : Nat) (n : CFGNode)
    (blk : BB) (init : List Inst) (c' : Value) (s0 s1 : BBId)
    (c : Value) (a b : BBId)
    (hm : n.merge = .MSelection) (hsmb : n.selection_merge_block = none)
    (hexit : n.selection_merge_exit = true)
    (hterm : n.term = .condition c a b)
    (hb : blockOf f n.bbId = some blk)
    (hbi : blk.instrs = init ++ [.term (.condBr c' s0 s1)]) :
    ((endsUnreach f s0 = true ∧ endsUnreach f s1 = false) →
      ∀ sb1 init1 t1, blockOf f s1 = some sb1 →
        sb1.instrs = init1 ++ [.term t1] → n.bbId ≠ s1 →
        ∃ f', annotate_node f fresh e n = some (f', fresh) ∧
          blockOf f' n.bbId = some { blk with instrs :=
            init ++ [.call "floor.selection_merge" [s1],
                     .term (.condBr c' s0 s1)] } ∧
          blockOf f' s1 = some { sb1 with instrs :=
            init1 ++ [.call "floor.merge_block" [], .term t1] }) ∧
    ((endsUnreach f s0 = false ∧ endsUnreach f s1 = true) →
      ∀ sb0 init0 t0, blockOf f s0 = some sb0 →
        sb0.instrs = init0 ++ [.term t0] → n.bbId ≠ s0 →
        ∃ f', annotate_node f fresh e n = some (f', fresh) ∧
          blockOf f' n.bbId = some { blk with instrs :=
            init ++ [.call "floor.selection_merge" [s0],
                     .term (.condBr c' s0 s1)] } ∧
          blockOf f' s0 = some { sb0 with instrs :=
            init0 ++ [.call "floor.merge_block" [], .term t0] }) ∧
    (endsUnreach f s0 = endsUnreach f s1 →
      annotate_node f fresh e n = some (f, fresh)) := by
  obtain ⟨bbid, nm, mg, lmb, lcb, smb, sme, pov, tm, phs⟩ := n
  dsimp only at hm hsmb hexit hterm hb ⊢
  subst hm; subst hsmb; subst hexit; subst hterm
  have hred : annotate_node f fresh e
      ⟨bbid, nm, .MSelection, lmb, lcb, none, true, pov,
        .condition c a b, phs⟩ =
      (match (blockOf f bbid).bind (fun blk => getTerm blk) with
      | some (.condBr _ s0 s1) =>
          if endsUnreach f s0 && !endsUnreach f s1 then
            (create_selection_merge f bbid s1).map (fun f1 => (f1, fresh))
          else if !endsUnreach f s0 && endsUnreach f s1 then
            (create_selection_merge f bbid s0).map (fun f1 => (f1, fresh))
          else some (f, fresh)
      | _ => none) := by
    simp only [annotate_node]
    rw [if_pos (by simp)]
  rw [hred, hb, Option.some_bind, getTerm_of_concat hbi]
  dsimp only
  refine ⟨?_, ?_, ?_⟩
  · rintro ⟨hu0, hu1⟩ sb1 init1 t1 hb1 hbi1 hne
    rw [hu0, hu1]
    obtain ⟨g', hg, hsh, hsm, _⟩ :=
      create_selection_merge_spec hne hb hbi hb1 hbi1
    refine ⟨g', ?_, hsh, hsm⟩
    simp [hg]
  · rintro ⟨hu0, hu1⟩ sb0 init0 t0 hb0 hbi0 hne
    rw [hu0, hu1]
    obtain ⟨g', hg, hsh, hsm, _⟩ :=
      create_selection_merge_spec hne hb hbi hb0 hbi0
    refine ⟨g', ?_, hsh, hsm⟩
    simp [hg]
  · intro heq
    rw [heq]
    cases h1 : endsUnreach f s1 <;> simp

/-- Concrete instance of the exit-selection theorem: the false successor is
the one that does not end in `unreachable`, so the selection merge targets
it. -/
theorem C9_exit_selection_witness :
    ∃ f', annotate_node
        [⟨0, "h", [.term (.condBr (.var 1) 1 2)]⟩,
         ⟨1, "u", [.term .unreach]⟩,
         ⟨2, "m", [.term (.ret none)]⟩] 5 0
        ⟨0, "h", .MSelection, none, none, none, true, none,
          .condition (.var 1) 1 2, []⟩ = some (f', 5) ∧
      blockOf f' 0 = some ⟨0, "h",
        [.call "floor.selection_merge" [2], .term (.condBr (.var 1) 1 2)]⟩ ∧
      blockOf f' 2 = some ⟨2, "m",
        [.call "floor.merge_block" [], .term (.ret none)]⟩ :=
  (C9_exit_selection
      [⟨0, "h", [.term (.condBr (.var 1) 1 2)]⟩,
       ⟨1, "u", [.term .unreach]⟩,
       ⟨2, "m", [.term (.ret none)]⟩] 5 0
      ⟨0, "h", .MSelection, none, none, none, true, none,
        .condition (.var 1) 1 2, []⟩
      ⟨0, "h", [.term (.condBr (.var 1) 1 2)]⟩ [] (.var 1) 1 2
      (.var 1) 1 2 rfl rfl rfl rfl (by decide) (by decide)).1
    ⟨by decide, by decide⟩ ⟨2, "m", [.term (.ret none)]⟩ [] (.ret none)
    (by decide) (by decide) (by decide)

theorem bbIds_insertBlockAfter (f : Func) (t : BBId) (nb : BB) (x : BBId) :
    x ∈ bbIds (insertBlockAfter f t nb) ↔ x = nb.id ∨ x ∈ bbIds f := by
  induction f with
  | nil => simp [insertBlockAfter, bbIds]
  | cons y rest ih =>
      by_cases hy : y.id = t
      · simp [insertBlockAfter, if_pos hy, bbIds]
        tauto
      · simp only [insertBlockAfter, if_neg hy, bbIds, List.map_cons,
          List.mem_cons] at ih ⊢
        rw [ih]
        tauto

/-- Counterexample to claim C2 as stated: the synthesized
`<name>.unreachable` block does not contain only an unreachable
instruction; the emission also inserts a `floor.merge_block` marker into it
before the unreachable terminator. -/
theorem C2_counterexample :
    (add_or_update_terminator
        [⟨0, "h", [.term (.condBr (.var 1) 2 3)]⟩,
         ⟨2, "a", [.term .unreach]⟩, ⟨3, "b", [.term .unreach]⟩] 10
        ⟨0, "h", .MLoop, some 5, some 6, none, false, none,
          .condition (.var 1) 2 3, []⟩).map
      (fun out => blockOf out.1 11) =
      some (some ⟨11, "h.unreachable",
        [.call "floor.merge_block" [], .term .unreach]⟩) ∧
    (add_or_update_terminator
        [⟨0, "h", [.term (.condBr (.var 1) 2 3)]⟩,
         ⟨2, "a", [.term .unreach]⟩, ⟨3, "b", [.term .unreach]⟩] 10
        ⟨0, "h", .MLoop, some 5, some 6, none, false, none,
          .condition (.var 1) 2 3, []⟩).map
      (fun out => blockOf out.1 11) ≠
      some (some ⟨11, "h.unreachable", [.term .unreach]⟩) := by
  constructor
  · rfl
  · decide

/-- Claim C2 (amended): for a node annotated `Loop` whose terminator record
is a conditional branch with both targets different from the loop's merge
and continue blocks, emission rewrites the node as follows: the node's
block ends with an unconditional branch to a new block named
`<name>.fake_selection`; that block carries the conditional branch preceded
by a `selection_merge` call targeting a new block named
`<name>.unreachable` whose body is a `merge_block` marker followed by an
unreachable instruction (not an unreachable instruction alone); and the
node's `phi_override` is set to the fake selection block. -/
theorem C2_fake_selection (f : Func) (fresh : Nat) (n : CFGNode)
    (blk : BB) (c : Value) (tb fb : BBId)
    (hmg : n.merge = .MLoop) (hterm : n.term = .condition c tb fb)
    (htb1 : n.loop_merge_block ≠ some tb)
    (htb2 : n.loop_continue_block ≠ some tb)
    (hfb1 : n.loop_merge_block ≠ some fb)
    (hfb2 : n.loop_continue_block ≠ some fb)
    (hb : blockOf f n.bbId = some blk)
    (hfr : ∀ x ∈ f, x.id < fresh) :
    needs_fake_selection n = true ∧
    (∃ f', add_or_update_terminator f fresh n =
        some (f', { n with phi_override := some fresh }, fresh + 2) ∧
      blockOf f' n.bbId =
        some { blk with
          instrs := dropTermInst blk.instrs ++ [.term (.br fresh)] } ∧
      blockOf f' fresh = some ⟨fresh, n.name ++ ".fake_selection",
        [.call "floor.selection_merge" [fresh + 1],
         .term (.condBr c tb fb)]⟩ ∧
      blockOf f' (fresh + 1) = some ⟨fresh + 1, n.name ++ ".unreachable",
        [.call "floor.merge_block" [], .term .unreach]⟩) ∧
    ((getTerm blk = none ∨
        (∃ t ty, getTerm blk = some t ∧
          get_terminator_type (prevOfTerm blk) t = some ty)) →
      updateTerminatorNode f fresh n = add_or_update_terminator f fresh n) := by
  have hbbid : n.bbId < fresh := by
    obtain ⟨hmem, hid⟩ := blockOf_mem hb
    exact hid ▸ hfr blk hmem
  have hfr0 : (fresh : BBId) ∉ bbIds f := by
    intro hc
    simp only [bbIds, List.mem_map] at hc
    obtain ⟨x, hx, hxid⟩ := hc
    exact absurd hxid (Nat.ne_of_lt (hfr x hx))
  have hfr1 : (fresh + 1 : BBId) ∉ bbIds f := by
    intro hc
    simp only [bbIds, List.mem_map] at hc
    obtain ⟨x, hx, hxid⟩ := hc
    exact absurd hxid (Nat.ne_of_lt (Nat.lt_succ_of_lt (hfr x hx)))
  obtain ⟨bbid, nm, mg, lmb, lcb, smb, sme, pov, tm, phs⟩ := n
  dsimp only at hmg hterm htb1 htb2 hfb1 hfb2 hb hbbid ⊢
  subst hmg; subst hterm
  have hnfs : needs_fake_selection
      ⟨bbid, nm, .MLoop, lmb, lcb, smb, sme, pov,
        .condition c tb fb, phs⟩ = true := by
    simp [needs_fake_selection, bne_iff_ne, htb1, htb2, hfb1, hfb2]
  refine ⟨hnfs, ?_, ?_⟩
  · -- unfold the fake-selection branch of add_or_update_terminator
    have hne_fs_bb : (fresh : BBId) ≠ bbid := Ne.symm (Nat.ne_of_lt hbbid)
    have hne_ub_bb : (fresh + 1 : BBId) ≠ bbid :=
      Ne.symm (Nat.ne_of_lt (Nat.lt_succ_of_lt hbbid))
    have hne_fs_ub : (fresh : BBId) ≠ fresh + 1 :=
      Nat.ne_of_lt (Nat.lt_succ_self fresh)
    set fs : BB := ⟨fresh, nm ++ ".fake_selection",
      [.term (.condBr c tb fb)]⟩ with hfs
    set ub : BB := ⟨fresh + 1, nm ++ ".unreachable",
      [.term .unreach]⟩ with hub
    set f1 := insertBlockAfter f bbid fs with hf1
    set f2 := insertBlockAfter f1 bbid ub with hf2
    set f3 := setInstrs f2 bbid
      (dropTermInst blk.instrs ++ [.term (.br fresh)]) with hf3
    have hub_id : ub.id = fresh + 1 := rfl
    have hfs_id : fs.id = fresh := rfl
    have hb1 : blockOf f1 fresh = some fs :=
      blockOf_insertBlockAfter_self f bbid fs hfr0
    have hb2 : blockOf f2 fresh = some fs := by
      rw [hf2, blockOf_insertBlockAfter_ne f1 bbid ub fresh
        (by rw [hub_id]; exact Nat.succ_ne_self fresh)]
      exact hb1
    have hb3fs : blockOf f3 fresh = some fs := by
      rw [hf3, setInstrs,
        blockOf_mapBlock_ne f2 bbid fresh
          (fun x => { x with
            instrs := dropTermInst blk.instrs ++ [.term (.br fresh)] })
          (fun y => rfl) hne_fs_bb]
      exact hb2
    have hub1 : (fresh + 1 : BBId) ∉ bbIds f1 := by
      rw [hf1]
      intro hc
      rcases (bbIds_insertBlockAfter f bbid fs (fresh + 1)).mp hc with h | h
      · rw [hfs_id] at h
        exact Nat.succ_ne_self fresh h
      · exact hfr1 h
    have hb2ub : blockOf f2 (fresh + 1) = some ub :=
      blockOf_insertBlockAfter_self f1 bbid ub hub1
    have hb3ub : blockOf f3 (fresh + 1) = some ub := by
      rw [hf3, setInstrs,
        blockOf_mapBlock_ne f2 bbid (fresh + 1)
          (fun x => { x with
            instrs := dropTermInst blk.instrs ++ [.term (.br fresh)] })
          (fun y => rfl) hne_ub_bb]
      exact hb2ub
    have hb3bb : blockOf f3 bbid =
        some { blk with
          instrs := dropTermInst blk.instrs ++ [.term (.br fresh)] } := by
      rw [hf3, setInstrs,
        blockOf_mapBlock_self f2 bbid
          (fun x => { x with
            instrs := dropTermInst blk.instrs ++ [.term (.br fresh)] })
          (fun y => rfl)]
      have hf2b : blockOf f2 bbid = some blk := by
        rw [hf2, blockOf_insertBlockAfter_ne f1 bbid ub bbid
            (by rw [hub_id]; exact hne_ub_bb), hf1,
          blockOf_insertBlockAfter_ne f bbid fs bbid
            (by rw [hfs_id]; exact hne_fs_bb)]
        exact hb
      rw [hf2b]
      rfl
    obtain ⟨f4, he4, hsh, hsm, hpres⟩ :=
      @create_selection_merge_spec f3 _ _ fs ub [] [] _ _
        hne_fs_ub hb3fs rfl hb3ub rfl
    refine ⟨f4, ?_, ?_, ?_, ?_⟩
    · show add_or_update_terminator f fresh
        ⟨bbid, nm, .MLoop, lmb, lcb, smb, sme, pov,
          .condition c tb fb, phs⟩ = _
      simp only [add_or_update_terminator, hb, hnfs, if_true]
      rw [← hf1, ← hf2, ← hf3, he4]
      rfl
    · rw [hpres bbid (Ne.symm hne_fs_bb) (Ne.symm hne_ub_bb)]
      exact hb3bb
    · simpa [hfs] using hsh
    · simpa [hub] using hsm
  · intro hcls
    rcases hcls with hnone | ⟨t, ty, ht, hty⟩
    · simp only [updateTerminatorNode, hb, hnone]
    · simp only [updateTerminatorNode, hb, ht, hty, hnfs]
      simp

/-- Concrete instance of the fake-selection theorem. -/
theorem C2_fake_selection_witness :
    ∃ f', add_or_update_terminator
        [⟨0, "h", [.term (.condBr (.var 1) 2 3)]⟩,
         ⟨2, "a", [.term .unreach]⟩, ⟨3, "b", [.term .unreach]⟩] 10
        ⟨0, "h", .MLoop, some 5, some 6, none, false, none,
          .condition (.var 1) 2 3, []⟩ =
        some (f', ⟨0, "h", .MLoop, some 5, some 6, none, false, some 10,
          .condition (.var 1) 2 3, []⟩, 12) ∧
      blockOf f' 0 = some ⟨0, "h", [.term (.br 10)]⟩ ∧
      blockOf f' 10 = some ⟨10, "h.fake_selection",
        [.call "floor.selection_merge" [11],
         .term (.condBr (.var 1) 2 3)]⟩ ∧
      blockOf f' 11 = some ⟨11, "h.unreachable",
        [.call "floor.merge_block" [], .term .unreach]⟩ :=
  (C2_fake_selection
      [⟨0, "h", [.term (.condBr (.var 1) 2 3)]⟩,
       ⟨2, "a", [.term .unreach]⟩, ⟨3, "b", [.term .unreach]⟩] 10
      ⟨0, "h", .MLoop, some 5, some 6, none, false, none,
        .condition (.var 1) 2 3, []⟩
      ⟨0, "h", [.term (.condBr (.var 1) 2 3)]⟩ (.var 1) 2 3
      (by decide) (by decide) (by decide) (by decide) (by decide) (by decide)
      (by decide) (by decide)).2.1

theorem bbIds_insertBlockBefore (f : Func) (t : BBId) (nb : BB) (x : BBId) :
    x ∈ bbIds (insertBlockBefore f t nb) ↔ x = nb.id ∨ x ∈ bbIds f := by
  induction f with
  | nil => simp [insertBlockBefore, bbIds]
  | cons y rest ih =>
      by_cases hy : y.id = t
      · simp only [insertBlockBefore, if_pos hy, bbIds, List.map_cons,
          List.mem_cons]
      · simp only [insertBlockBefore, if_neg hy, bbIds, List.map_cons,
          List.mem_cons] at ih ⊢
        rw [ih]
        tauto

theorem blockOf_lt_fresh {f : Func} {x : BBId} {blk : BB} {fresh : Nat}
    (hb : blockOf f x = some blk) (hfr : ∀ y ∈ f, y.id < fresh) :
    x < fresh := by
  obtain ⟨hmem, hid⟩ := blockOf_mem hb
  exact hid ▸ hfr blk hmem

theorem fresh_not_mem_bbIds {f : Func} {fresh k : Nat}
    (hfr : ∀ y ∈ f, y.id < fresh) (hk : fresh ≤ k) : k ∉ bbIds f := by
  intro hc
  simp only [bbIds, List.mem_map] at hc
  obtain ⟨x, hx, hxid⟩ := hc
  exact absurd hxid (Nat.ne_of_lt (Nat.lt_of_lt_of_le (hfr x hx) hk))

/-- Counterexample to claim C3 as stated: the synthesized
`<name>.fake_merge` block does not contain only an unreachable instruction;
emission also inserts a `floor.merge_block` marker into it before the
unreachable terminator. -/
theorem C3_counterexample :
    (annotate_node [⟨0, "A", [.term (.condBr (.var 1) 0 1)]⟩,
        ⟨1, "B", [.term (.ret none)]⟩] 2 0
        ⟨0, "A", .MLoop, none, some 0, none, false, none,
          .condition (.var 1) 0 1, []⟩).map (fun out => blockOf out.1 2) =
      some (some ⟨2, "A.fake_merge",
        [.call "floor.merge_block" [], .term .unreach]⟩) ∧
    (annotate_node [⟨0, "A", [.term (.condBr (.var 1) 0 1)]⟩,
        ⟨1, "B", [.term (.ret none)]⟩] 2 0
        ⟨0, "A", .MLoop, none, some 0, none, false, none,
          .condition (.var 1) 0 1, []⟩).map (fun out => blockOf out.1 2) ≠
      some (some ⟨2, "A.fake_merge", [.term .unreach]⟩) := by
  constructor
  · rfl
  · decide

/-- Claim C3 (amended): for a node annotated `Loop` at merge-annotation
emission, having both `merge_info.merge_block` and
`merge_info.continue_block` null is unreachable (`llvm_unreachable`,
modelled as a fatal result).  When the continue block is null, exactly one
fake continue block named `<name>.fake_continue` branching to the header is
synthesized with a fresh identity and used as the continue target, an undef
incoming value for it is appended to every phi of the header, and when the
header is also the function entry a fake entry block named
`<name>.new_entry.fake_continue` branching to the header is created first
(it receives the first fresh identity).  When the merge block is null, a
fake merge block named `<name>.fake_merge` is synthesized and used as the
merge target; its body is a `merge_block` marker followed by an unreachable
instruction (not an unreachable instruction alone). -/
theorem C3_loop_fake_blocks (f : Func) (fresh e : Nat) (n : CFGNode)
    (hm : n.merge = .MLoop) (hfr : ∀ x ∈ f, x.id < fresh) :
    (n.loop_merge_block = none → n.loop_continue_block = none →
      annotate_node f fresh e n = none) ∧
    (∀ mb blk initH tH mblk initM tM,
      n.loop_merge_block = some mb → n.loop_continue_block = none →
      blockOf f n.bbId = some blk → blk.instrs = initH ++ [.term tH] →
      blockOf f mb = some mblk → mblk.instrs = initM ++ [.term tM] →
      n.bbId ≠ mb →
      ((n.bbId ≠ e →
        ∃ f', annotate_node f fresh e n = some (f', fresh + 1) ∧
          blockOf f' fresh = some ⟨fresh, n.name ++ ".fake_continue",
            [.call "floor.continue_block" [], .term (.br n.bbId)]⟩ ∧
          blockOf f' n.bbId =
            some { blk with
              instrs := initH.map (addUndefIncoming fresh) ++
                [.call "floor.loop_merge" [mb, fresh], .term tH] } ∧
          blockOf f' mb =
            some { mblk with
              instrs := initM ++ [.call "floor.merge_block" [], .term tM] }) ∧
      (n.bbId = e →
        ∃ f', annotate_node f fresh e n = some (f', fresh + 2) ∧
          blockOf f' fresh =
            some ⟨fresh, n.name ++ ".new_entry.fake_continue",
              [.term (.br n.bbId)]⟩ ∧
          blockOf f' (fresh + 1) =
            some ⟨fresh + 1, n.name ++ ".fake_continue",
              [.call "floor.continue_block" [], .term (.br n.bbId)]⟩ ∧
          blockOf f' n.bbId =
            some { blk with
              instrs := initH.map (addUndefIncoming (fresh + 1)) ++
                [.call "floor.loop_merge" [mb, fresh + 1], .term tH] } ∧
          blockOf f' mb =
            some { mblk with
              instrs := initM ++ [.call "floor.merge_block" [], .term tM] }))) ∧
    (∀ cb blk initH tH cblk initC tC,
      n.loop_merge_block = none → n.loop_continue_block = some cb →
      blockOf f n.bbId = some blk → blk.instrs = initH ++ [.term tH] →
      blockOf f (continueArg n cb) = some cblk →
      cblk.instrs = initC ++ [.term tC] →
      n.bbId ≠ continueArg n cb →
      ∃ f', annotate_node f fresh e n = some (f', fresh + 1) ∧
        blockOf f' fresh = some ⟨fresh, n.name ++ ".fake_merge",
          [.call "floor.merge_block" [], .term .unreach]⟩ ∧
        blockOf f' n.bbId =
          some { blk with
            instrs := initH ++
              [.call "floor.loop_merge" [fresh, continueArg n cb],
               .term tH] } ∧
        blockOf f' (continueArg n cb) =
          some { cblk with
            instrs := initC ++
              [.call "floor.continue_block" [], .term tC] }) := by
  have hfr0 : (fresh : BBId) ∉ bbIds f := fresh_not_mem_bbIds hfr (le_refl _)
  have hfr1 : (fresh + 1 : BBId) ∉ bbIds f :=
    fresh_not_mem_bbIds hfr (Nat.le_succ _)
  obtain ⟨bbid, nm, mg, lmb, lcb, smb, sme, pov, tm, phs⟩ := n
  dsimp only at hm hfr ⊢
  subst hm
  refine ⟨?_, ?_, ?_⟩
  · intro h1 h2
    subst h1; subst h2
    rfl
  · intro mb blk initH tH mblk initM tM hmb hcb hbH hbiH hbM hbiM hne_mb
    subst hmb; subst hcb
    have hbbid : bbid < fresh := blockOf_lt_fresh hbH hfr
    have hmbf : mb < fresh := blockOf_lt_fresh hbM hfr
    constructor
    · intro hne_e
      -- non-entry: the fake continue gets identity `fresh`
      set fc : BB := ⟨fresh, nm ++ ".fake_continue",
        [.term (.br bbid)]⟩ with hfc
      set f2 := insertBlockBefore f bbid fc with hf2
      have hb2H : blockOf f2 bbid = some blk := by
        rw [hf2, blockOf_insertBlockBefore_ne f bbid fc bbid
          (show fc.id ≠ bbid from Ne.symm (Nat.ne_of_lt hbbid))]
        exact hbH
      have hb2M : blockOf f2 mb = some mblk := by
        rw [hf2, blockOf_insertBlockBefore_ne f bbid fc mb
          (show fc.id ≠ mb from Ne.symm (Nat.ne_of_lt hmbf))]
        exact hbM
      have hb2C : blockOf f2 fresh = some fc :=
        blockOf_insertBlockBefore_self f bbid fc hfr0
      obtain ⟨f3, he3, hsh, hsm, hsc, hpres⟩ :=
        @create_loop_merge_spec f2 _ _ _ blk mblk fc _ _ [] _ _ _
          hne_mb (Nat.ne_of_lt hbbid)
          (Nat.ne_of_lt hmbf) hb2H hbiH hb2M hbiM hb2C rfl
      refine ⟨mapBlock f3 bbid
          (fun x => { x with
            instrs := x.instrs.map (addUndefIncoming fresh) }), ?_, ?_, ?_, ?_⟩
      · show annotate_node f fresh e
          ⟨bbid, nm, .MLoop, some mb, none, smb, sme, pov, tm, phs⟩ = _
        simp only [annotate_node]
        rw [if_neg hne_e]
        dsimp only
        rw [← hfc, ← hf2, he3]
      · rw [blockOf_mapBlock_ne f3 bbid fresh
          (fun x => { x with
            instrs := x.instrs.map (addUndefIncoming fresh) })
          (fun y => rfl) (Ne.symm (Nat.ne_of_lt hbbid))]
        simpa [hfc] using hsc
      · rw [blockOf_mapBlock_self f3 bbid
          (fun x => { x with
            instrs := x.instrs.map (addUndefIncoming fresh) })
          (fun y => rfl), hsh]
        simp [addUndefIncoming]
      · rw [blockOf_mapBlock_ne f3 bbid mb
          (fun x => { x with
            instrs := x.instrs.map (addUndefIncoming fresh) })
          (fun y => rfl) (Ne.symm hne_mb)]
        exact hsm
    · intro he_e
      -- entry: a fake entry block is created first, with identity `fresh`
      set ne0 : BB := ⟨fresh, nm ++ ".new_entry.fake_continue",
        [.term (.br bbid)]⟩ with hne0
      set fc : BB := ⟨fresh + 1, nm ++ ".fake_continue",
        [.term (.br bbid)]⟩ with hfc
      set f1 := insertBlockBefore f bbid ne0 with hf1
      set f2 := insertBlockBefore f1 bbid fc with hf2
      have hfc_f1 : (fresh + 1 : BBId) ∉ bbIds f1 := by
        rw [hf1]
        intro hc
        rcases (bbIds_insertBlockBefore f bbid ne0 (fresh + 1)).mp hc with h | h
        · rw [show ne0.id = fresh from rfl] at h
          exact Nat.succ_ne_self fresh h
        · exact hfr1 h
      have hb2H : blockOf f2 bbid = some blk := by
        rw [hf2, blockOf_insertBlockBefore_ne f1 bbid fc bbid
            (show fc.id ≠ bbid from
              Ne.symm (Nat.ne_of_lt (Nat.lt_succ_of_lt hbbid))), hf1,
          blockOf_insertBlockBefore_ne f bbid ne0 bbid
            (show ne0.id ≠ bbid from Ne.symm (Nat.ne_of_lt hbbid))]
        exact hbH
      have hb2M : blockOf f2 mb = some mblk := by
        rw [hf2, blockOf_insertBlockBefore_ne f1 bbid fc mb
            (show fc.id ≠ mb from
              Ne.symm (Nat.ne_of_lt (Nat.lt_succ_of_lt hmbf))), hf1,
          blockOf_insertBlockBefore_ne f bbid ne0 mb
            (show ne0.id ≠ mb from Ne.symm (Nat.ne_of_lt hmbf))]
        exact hbM
      have hb2C : blockOf f2 (fresh + 1) = some fc :=
        blockOf_insertBlockBefore_self f1 bbid fc hfc_f1
      have hb2N : blockOf f2 fresh = some ne0 := by
        rw [hf2, blockOf_insertBlockBefore_ne f1 bbid fc fresh
            (show fc.id ≠ fresh from Nat.succ_ne_self fresh)]
        exact blockOf_insertBlockBefore_self f bbid ne0 hfr0
      obtain ⟨f3, he3, hsh, hsm, hsc, hpres⟩ :=
        @create_loop_merge_spec f2 _ _ _ blk mblk fc _ _ [] _ _ _
          hne_mb
          (Nat.ne_of_lt (Nat.lt_succ_of_lt hbbid))
          (Nat.ne_of_lt (Nat.lt_succ_of_lt hmbf)) hb2H hbiH hb2M hbiM hb2C rfl
      refine ⟨mapBlock f3 bbid
          (fun x => { x with
            instrs := x.instrs.map (addUndefIncoming (fresh + 1)) }),
          ?_, ?_, ?_, ?_, ?_⟩
      · show annotate_node f fresh e
          ⟨bbid, nm, .MLoop, some mb, none, smb, sme, pov, tm, phs⟩ = _
        simp only [annotate_node]
        rw [if_pos he_e]
        dsimp only
        rw [← hne0, ← hf1, ← hfc, ← hf2, he3]
      · rw [blockOf_mapBlock_ne f3 bbid fresh
          (fun x => { x with
            instrs := x.instrs.map (addUndefIncoming (fresh + 1)) })
          (fun y => rfl) (Ne.symm (Nat.ne_of_lt hbbid))]
        rw [hpres fresh (Nat.ne_of_lt hbbid).symm
            (Nat.ne_of_lt hmbf).symm (Nat.succ_ne_self fresh).symm]
        exact hb2N
      · rw [blockOf_mapBlock_ne f3 bbid (fresh + 1)
          (fun x => { x with
            instrs := x.instrs.map (addUndefIncoming (fresh + 1)) })
          (fun y => rfl) (Ne.symm (Nat.ne_of_lt (Nat.lt_succ_of_lt hbbid)))]
        simpa [hfc] using hsc
      · rw [blockOf_mapBlock_self f3 bbid
          (fun x => { x with
            instrs := x.instrs.map (addUndefIncoming (fresh + 1)) })
          (fun y => rfl), hsh]
        simp [addUndefIncoming]
      · rw [blockOf_mapBlock_ne f3 bbid mb
          (fun x => { x with
            instrs := x.instrs.map (addUndefIncoming (fresh + 1)) })
          (fun y => rfl) (Ne.symm hne_mb)]
        exact hsm
  · intro cb blk initH tH cblk initC tC hmb hcb hbH hbiH hbC hbiC hne_cb
    subst hmb; subst hcb
    have hbbid : bbid < fresh := blockOf_lt_fresh hbH hfr
    have hcbf : continueArg
        ⟨bbid, nm, .MLoop, none, some cb, smb, sme, pov, tm, phs⟩ cb <
        fresh := blockOf_lt_fresh hbC hfr
    set cbb := continueArg
      ⟨bbid, nm, .MLoop, none, some cb, smb, sme, pov, tm, phs⟩ cb with hcbb
    set fm : BB := ⟨fresh, nm ++ ".fake_merge", [.term .unreach]⟩ with hfm
    set f1 := insertBlockAfter f bbid fm with hf1
    have hb1H : blockOf f1 bbid = some blk := by
      rw [hf1, blockOf_insertBlockAfter_ne f bbid fm bbid
        (show fm.id ≠ bbid from Ne.symm (Nat.ne_of_lt hbbid))]
      exact hbH
    have hb1C : blockOf f1 cbb = some cblk := by
      rw [hf1, blockOf_insertBlockAfter_ne f bbid fm cbb
        (show fm.id ≠ cbb from Ne.symm (Nat.ne_of_lt hcbf))]
      exact hbC
    have hb1M : blockOf f1 fresh = some fm :=
      blockOf_insertBlockAfter_self f bbid fm hfr0
    obtain ⟨f2, he2, hsh, hsm, hsc, hpres⟩ :=
      @create_loop_merge_spec f1 _ _ _ blk fm cblk _ [] _ _ _ _
        (Nat.ne_of_lt hbbid) hne_cb
        (Ne.symm (Nat.ne_of_lt hcbf)) hb1H hbiH hb1M rfl hb1C hbiC
    refine ⟨f2, ?_, ?_, hsh, hsc⟩
    · show annotate_node f fresh e
        ⟨bbid, nm, .MLoop, none, some cb, smb, sme, pov, tm, phs⟩ = _
      simp only [annotate_node]
      rw [← hfm, ← hf1, ← hcbb, he2]
      rfl
    · simpa [hfm] using hsm

/-- Concrete instance of the loop fake-block theorem: a loop header with a
merge block but no continue block receives a fresh `.fake_continue` block,
and its phi gains an undef incoming entry for it. -/
theorem C3_loop_fake_blocks_witness :
    ∃ f', annotate_node
        [⟨0, "H", [.phi 9 [(1, Value.var 7)],
            .term (.condBr (.var 1) 0 2)]⟩,
         ⟨2, "M", [.term (.ret none)]⟩] 5 3
        ⟨0, "H", .MLoop, some 2, none, none, false, none,
          .condition (.var 1) 0 2, []⟩ = some (f', 6) ∧
      blockOf f' 5 = some ⟨5, "H.fake_continue",
        [.call "floor.continue_block" [], .term (.br 0)]⟩ ∧
      blockOf f' 0 = some ⟨0, "H",
        [.phi 9 [(1, Value.var 7), (5, Value.undef)],
         .call "floor.loop_merge" [2, 5],
         .term (.condBr (.var 1) 0 2)]⟩ ∧
      blockOf f' 2 = some ⟨2, "M",
        [.call "floor.merge_block" [], .term (.ret none)]⟩ :=
  ((C3_loop_fake_blocks
      [⟨0, "H", [.phi 9 [(1, Value.var 7)],
          .term (.condBr (.var 1) 0 2)]⟩,
       ⟨2, "M", [.term (.ret none)]⟩] 5 3
      ⟨0, "H", .MLoop, some 2, none, none, false, none,
        .condition (.var 1) 0 2, []⟩ rfl (by decide)).2.1
    2 ⟨0, "H", [.phi 9 [(1, Value.var 7)], .term (.condBr (.var 1) 0 2)]⟩
    [.phi 9 [(1, Value.var 7)]] (.condBr (.var 1) 0 2)
    ⟨2, "M", [.term (.ret none)]⟩ [] (.ret none)
    (by decide) (by decide) (by decide) (by decide) (by decide) (by decide)
    (by decide)).1 (by decide)

/-- The operand comparison the terminator-update step performs between an
existing host terminator and the terminator record of the same type
(cfg_translator.cpp:292-354): condition and both successors for a
conditional branch; the single successor for a branch; the return value for
a return; nothing for unreachable/kill; the default destination, condition,
case count and every case's value and successor (compared index-wise
against the record's case list) for a switch. -/
def operandsMatchHR : HostTerm → CTerm → Prop
  | .condBr c tb fb, .condition c' tb' fb' => c = c' ∧ tb = tb' ∧ fb = fb'
  | .br d, .branch d' => d = d'
  | .ret v, .ret v' => v = v'
  | .unreach, .unreach => True
  | .unreach, .kill => True
  | .switch c dflt scases, .switch c' cases' =>
      ∃ d, cases'.find? (fun cs => cs.is_default) = some d ∧ dflt = d.node ∧
        c = c' ∧ scases.length = cases'.length ∧
        switchCasesMatch scases cases' = true
  | _, _ => False

theorem dropTermInst_eq_dropLast {blk : BB} {t : HostTerm}
    (ht : getTerm blk = some t) :
    dropTermInst blk.instrs = blk.instrs.dropLast := by
  unfold getTerm at ht
  unfold dropTermInst
  rcases hl : blk.instrs.getLast? with _ | i
  · rw [hl] at ht; exact absurd ht (by simp)
  · rw [hl] at ht
    cases i <;> simp_all

theorem insertBeforeTermInst_pres {f f' : Func} {b : BBId} {i : Inst}
    (he : insertBeforeTermInst f b i = some f') (x : BBId) (hx : x ≠ b) :
    blockOf f' x = blockOf f x := by
  rcases hb : blockOf f b with _ | blk
  · simp only [insertBeforeTermInst, hb] at he
    exact absurd he (by simp)
  · simp only [insertBeforeTermInst, hb] at he
    rcases hl : blk.instrs.getLast? with _ | ii
    · simp only [hl] at he
      exact absurd he (by simp)
    · simp only [hl] at he
      cases ii with
      | term t =>
          simp only [Option.some_inj] at he
          subst he
          exact blockOf_mapBlock_ne f b x
            (fun y => { y with instrs := insertBeforeLastInst y.instrs i })
            (fun y => rfl) hx
      | phi p inc => simp at he
      | op o => simp at he
      | call fn args => simp at he

theorem setInstrs_result {f : Func} {bbid : BBId} {blk : BB}
    (hb : blockOf f bbid = some blk) {new : List Inst} :
    blockOf (setInstrs f bbid new) bbid = some { blk with instrs := new } := by
  rw [setInstrs, blockOf_mapBlock_self f bbid
    (fun x => { x with instrs := new }) (fun y => rfl), hb]
  rfl

theorem create_selection_merge_pres {f f' : Func} {h mb : BBId}
    (he : create_selection_merge f h mb = some f') (x : BBId)
    (hx1 : x ≠ h) (hx2 : x ≠ mb) : blockOf f' x = blockOf f x := by
  unfold create_selection_merge at he
  rcases h1 : insertBeforeTermInst f h (.call "floor.selection_merge" [mb])
      with _ | f1
  · rw [h1] at he; exact absurd he (by simp)
  · rw [h1] at he
    simp only [Option.some_bind] at he
    have h2 : insertBeforeTermInst f1 mb (.call "floor.merge_block" []) =
        some f' := he
    rw [insertBeforeTermInst_pres h2 x hx2, insertBeforeTermInst_pres h1 x hx1]

/-- Claim C6: during emission, a node that already has a host terminator
keeps it in place unchanged exactly when the host terminator's type equals
the record's type, no fake selection is required, and all operands match;
otherwise the terminator is erased and a new terminator is created from the
CFG record (the block's remaining instructions are preserved and a freshly
created terminator sequence is appended). -/
theorem C6_terminator_update (f : Func) (fresh : Nat) (n : CFGNode)
    (blk : BB) (t : HostTerm) (ty : TermType)
    (hb : blockOf f n.bbId = some blk) (ht : getTerm blk = some t)
    (hty : get_terminator_type (prevOfTerm blk) t = some ty)
    (hfr : ∀ x ∈ f, x.id < fresh) :
    ((ty = recordType n.term ∧ operandsMatchHR t n.term ∧
        needs_fake_selection n = false) →
      updateTerminatorNode f fresh n = some (f, n, fresh)) ∧
    ((ty ≠ recordType n.term ∨ ¬ operandsMatchHR t n.term ∨
        needs_fake_selection n = true) →
      updateTerminatorNode f fresh n = add_or_update_terminator f fresh n) ∧
    (∀ out, add_or_update_terminator f fresh n = some out →
      ∃ blk' tail t', blockOf out.1 n.bbId = some blk' ∧
        blk'.instrs = blk.instrs.dropLast ++ tail ∧
        tail.getLast? = some (.term t')) := by
  have hbbid : n.bbId < fresh := blockOf_lt_fresh hb hfr
  have hdrop : dropTermInst blk.instrs = blk.instrs.dropLast :=
    dropTermInst_eq_dropLast ht
  obtain ⟨bbid, nm, mg, lmb, lcb, smb, sme, pov, tm, phs⟩ := n
  dsimp only at hb hbbid ⊢
  refine ⟨?_, ?_, ?_⟩
  · rintro ⟨hty_eq, hops, hnfs⟩
    subst hty_eq
    simp only [updateTerminatorNode, hb, ht, hty]
    rw [if_neg (by simp [hnfs])]
    cases tm <;> cases t <;> (try exact hops.elim)
    case condition.condBr c' tb' fb' c tb fb =>
        obtain ⟨h1, h2, h3⟩ := hops
        subst h1; subst h2; subst h3
        simp
    case branch.br d' d =>
        subst hops
        simp
    case ret.ret v' v =>
        subst hops
        simp
    case unreach.unreach => rfl
    case kill.unreach => rfl
    case switch.switch c' cases' c dflt scases =>
        obtain ⟨d, hfind, h1, h2, h3, h4⟩ := hops
        subst h1; subst h2
        have hcond : (d.node != d.node || c != c ||
            scases.length != cases'.length) = false := by
          simp [h3]
        simp only [hfind, hcond, Bool.false_eq_true, if_false, h4, if_true]
  · intro hdisj
    by_cases hnfs : needs_fake_selection
        ⟨bbid, nm, mg, lmb, lcb, smb, sme, pov, tm, phs⟩ = true
    · simp only [updateTerminatorNode, hb, ht, hty]
      rw [if_pos (by rw [hnfs]; simp)]
    · by_cases hty_eq : ty = recordType tm
      · subst hty_eq
        have hops : ¬ operandsMatchHR t tm := by
          rcases hdisj with h | h | h
          · exact absurd rfl h
          · exact h
          · exact absurd h hnfs
        simp only [updateTerminatorNode, hb, ht, hty]
        rw [if_neg (by simp [hnfs])]
        cases tm <;> cases t <;> try rfl
        all_goals try ((exfalso; revert hty; cases hd : isDiscardCall (prevOfTerm blk) <;> simp [get_terminator_type, recordType, hd]); done)
        next c' tb' fb' c tb fb =>
            have hcond : (c == c' && tb == tb' && fb == fb') = false := by
              rw [Bool.eq_false_iff]
              intro hc
              simp only [Bool.and_eq_true, beq_iff_eq] at hc
              exact hops ⟨hc.1.1, hc.1.2, hc.2⟩
            simp only [hcond, Bool.false_eq_true, if_false]
        next d' d =>
            have hcond : (d == d') = false := by
              rw [Bool.eq_false_iff]
              intro hc
              simp only [beq_iff_eq] at hc
              exact hops hc
            simp only [hcond, Bool.false_eq_true, if_false]
        next v' v =>
            have hcond : (v == v') = false := by
              rw [Bool.eq_false_iff]
              intro hc
              simp only [beq_iff_eq] at hc
              exact hops hc
            simp only [hcond, Bool.false_eq_true, if_false]
        next => exact absurd trivial hops
        next => exact absurd trivial hops
        next c' cases' c dflt scases =>
            rcases hfind : cases'.find? (fun cs => cs.is_default) with _ | d
            · simp only [hfind]
            · by_cases hc1 : dflt = d.node ∧ c = c' ∧
                  scases.length = cases'.length
              · have hcond : (dflt != d.node || c != c' ||
                    scases.length != cases'.length) = false := by
                  simp [hc1.1, hc1.2.1, hc1.2.2]
                have hcm : switchCasesMatch scases cases' = false := by
                  rcases hm : switchCasesMatch scases cases' with _ | _
                  · rfl
                  · exact absurd ⟨d, hfind, hc1.1, hc1.2.1, hc1.2.2, hm⟩ hops
                simp only [hfind, hcond, Bool.false_eq_true, if_false, hcm]
              · have hcond : (dflt != d.node || c != c' ||
                    scases.length != cases'.length) = true := by
                  simp only [Bool.or_eq_true, bne_iff_ne]
                  by_cases e1 : dflt = d.node
                  · by_cases e2 : c = c'
                    · exact Or.inr (fun hlen => hc1 ⟨e1, e2, hlen⟩)
                    · exact Or.inl (Or.inr e2)
                  · exact Or.inl (Or.inl e1)
                simp only [hfind, hcond, if_true]
      · simp only [updateTerminatorNode, hb, ht, hty]
        rw [if_pos (by simp only [Bool.or_eq_true, bne_iff_ne]; exact Or.inl hty_eq)]
  · intro out hout
    cases tm with
    | condition c tb fb =>
        rcases hnfs : needs_fake_selection
            ⟨bbid, nm, mg, lmb, lcb, smb, sme, pov,
              .condition c tb fb, phs⟩ with _ | _
        · simp only [add_or_update_terminator, hb, hnfs, Bool.false_eq_true,
            if_false, Option.some_inj] at hout
          subst hout
          refine ⟨{ blk with instrs :=
              blk.instrs.dropLast ++ [.term (.condBr c tb fb)] },
            [.term (.condBr c tb fb)], .condBr c tb fb, ?_, rfl, rfl⟩
          rw [show (setInstrs f bbid
              (dropTermInst blk.instrs ++ [.term (.condBr c tb fb)]),
              (⟨bbid, nm, mg, lmb, lcb, smb, sme, pov,
                .condition c tb fb, phs⟩ : CFGNode), fresh).1 =
              setInstrs f bbid
                (dropTermInst blk.instrs ++ [.term (.condBr c tb fb)])
            from rfl,
            setInstrs_result hb, hdrop]
        · simp only [add_or_update_terminator, hb, hnfs, if_true] at hout
          rcases Option.map_eq_some'.mp hout with ⟨f4, hcse, hout_eq⟩
          have hbne0 : bbid ≠ fresh := Nat.ne_of_lt hbbid
          have hbne1 : bbid ≠ fresh + 1 :=
            Nat.ne_of_lt (Nat.lt_succ_of_lt hbbid)
          have hout1 : out.1 = f4 := by rw [← hout_eq]
          have hbb : blockOf (insertBlockAfter (insertBlockAfter f bbid
              ⟨fresh, nm ++ ".fake_selection", [.term (.condBr c tb fb)]⟩)
              bbid ⟨fresh + 1, nm ++ ".unreachable", [.term .unreach]⟩)
              bbid = some blk := by
            rw [blockOf_insertBlockAfter_ne _ bbid _ bbid (Ne.symm hbne1),
              blockOf_insertBlockAfter_ne _ bbid _ bbid (Ne.symm hbne0)]
            exact hb
          refine ⟨{ blk with instrs :=
              blk.instrs.dropLast ++ [.term (.br fresh)] },
            [.term (.br fresh)], .br fresh, ?_, rfl, rfl⟩
          rw [hout1, create_selection_merge_pres hcse bbid hbne0 hbne1,
            setInstrs_result hbb, hdrop]
    | branch d =>
        simp only [add_or_update_terminator, hb, Option.some_inj] at hout
        subst hout
        refine ⟨{ blk with instrs :=
            blk.instrs.dropLast ++ [.term (.br d)] },
          [.term (.br d)], .br d, ?_, rfl, rfl⟩
        rw [show (setInstrs f bbid (dropTermInst blk.instrs ++ [.term (.br d)]),
            (⟨bbid, nm, mg, lmb, lcb, smb, sme, pov,
              .branch d, phs⟩ : CFGNode), fresh).1 =
            setInstrs f bbid (dropTermInst blk.instrs ++ [.term (.br d)])
          from rfl, setInstrs_result hb, hdrop]
    | ret v =>
        simp only [add_or_update_terminator, hb, Option.some_inj] at hout
        subst hout
        refine ⟨{ blk with instrs :=
            blk.instrs.dropLast ++ [.term (.ret v)] },
          [.term (.ret v)], .ret v, ?_, rfl, rfl⟩
        rw [show (setInstrs f bbid (dropTermInst blk.instrs ++ [.term (.ret v)]),
            (⟨bbid, nm, mg, lmb, lcb, smb, sme, pov,
              .ret v, phs⟩ : CFGNode), fresh).1 =
            setInstrs f bbid (dropTermInst blk.instrs ++ [.term (.ret v)])
          from rfl, setInstrs_result hb, hdrop]
    | unreach =>
        simp only [add_or_update_terminator, hb, Option.some_inj] at hout
        subst hout
        refine ⟨{ blk with instrs :=
            blk.instrs.dropLast ++ [.term .unreach] },
          [.term .unreach], .unreach, ?_, rfl, rfl⟩
        rw [show (setInstrs f bbid (dropTermInst blk.instrs ++ [.term .unreach]),
            (⟨bbid, nm, mg, lmb, lcb, smb, sme, pov,
              .unreach, phs⟩ : CFGNode), fresh).1 =
            setInstrs f bbid (dropTermInst blk.instrs ++ [.term .unreach])
          from rfl, setInstrs_result hb, hdrop]
    | kill =>
        rcases hdc : needsDiscardCall (dropTermInst blk.instrs) with _ | _
        · simp only [add_or_update_terminator, hb, hdc, Bool.false_eq_true,
            if_false, Option.some_inj] at hout
          subst hout
          refine ⟨{ blk with instrs :=
              blk.instrs.dropLast ++ [.term .unreach] },
            [.term .unreach], .unreach, ?_, rfl, rfl⟩
          rw [show (setInstrs f bbid (dropTermInst blk.instrs ++ [.term .unreach]),
              (⟨bbid, nm, mg, lmb, lcb, smb, sme, pov,
                .kill, phs⟩ : CFGNode), fresh).1 =
              setInstrs f bbid (dropTermInst blk.instrs ++ [.term .unreach])
            from rfl, setInstrs_result hb, hdrop]
        · simp only [add_or_update_terminator, hb, hdc, if_true,
            Option.some_inj] at hout
          subst hout
          refine ⟨{ blk with instrs := blk.instrs.dropLast ++
              [.call "floor.discard_fragment" [], .term .unreach] },
            [.call "floor.discard_fragment" [], .term .unreach],
            .unreach, ?_, rfl, rfl⟩
          rw [show (setInstrs f bbid
              (dropTermInst blk.instrs ++ [.call "floor.discard_fragment" []] ++
                [.term .unreach]),
              (⟨bbid, nm, mg, lmb, lcb, smb, sme, pov,
                .kill, phs⟩ : CFGNode), fresh).1 =
              setInstrs f bbid
                (dropTermInst blk.instrs ++ [.call "floor.discard_fragment" []] ++
                  [.term .unreach])
            from rfl, setInstrs_result hb, hdrop]
          simp
    | switch c cases =>
        rcases hfind : cases.find? (fun cs => cs.is_default) with _ | d
        · simp only [add_or_update_terminator, hb, hfind] at hout
          exact absurd hout (by simp)
        · rcases hnd : switchNonDefault cases with _ | scases
          · simp only [add_or_update_terminator, hb, hfind, hnd] at hout
            exact absurd hout (by simp)
          · simp only [add_or_update_terminator, hb, hfind, hnd,
              Option.some_inj] at hout
            subst hout
            refine ⟨{ blk with instrs := blk.instrs.dropLast ++
                [.term (.switch c d.node scases)] },
              [.term (.switch c d.node scases)],
              .switch c d.node scases, ?_, rfl, rfl⟩
            rw [show (setInstrs f bbid (dropTermInst blk.instrs ++
                [.term (.switch c d.node scases)]),
                (⟨bbid, nm, mg, lmb, lcb, smb, sme, pov,
                  .switch c cases, phs⟩ : CFGNode), fresh).1 =
                setInstrs f bbid (dropTermInst blk.instrs ++
                  [.term (.switch c d.node scases)])
              from rfl, setInstrs_result hb, hdrop]

/-- Concrete instance of the terminator-update theorem: a host branch whose
single successor matches the record is kept in place unchanged. -/
theorem C6_terminator_update_witness :
    updateTerminatorNode
      [⟨0, "b", [.term (.br 1)]⟩, ⟨1, "t", [.term (.ret none)]⟩] 5
      ⟨0, "b", .MNone, none, none, none, false, none, .branch 1, []⟩ =
      some ([⟨0, "b", [.term (.br 1)]⟩, ⟨1, "t", [.term (.ret none)]⟩],
        ⟨0, "b", .MNone, none, none, none, false, none, .branch 1, []⟩, 5) :=
  (C6_terminator_update
      [⟨0, "b", [.term (.br 1)]⟩, ⟨1, "t", [.term (.ret none)]⟩] 5
      ⟨0, "b", .MNone, none, none, none, false, none, .branch 1, []⟩
      ⟨0, "b", [.term (.br 1)]⟩ (.br 1) .Branch
      (by decide) rfl rfl (by decide)).1 ⟨rfl, rfl, rfl⟩

/-! ### Reachability soundness -/

theorem reachAux_sound (f : Func) (e : BBId) :
    ∀ (fuel : Nat) (ws vis : List BBId),
      (∀ b ∈ ws, ReachSpec f e b) → (∀ v ∈ vis, ReachSpec f e v) →
      ∀ x ∈ reachAux f fuel ws vis, ReachSpec f e x := by
  intro fuel
  induction fuel with
  | zero =>
      intro ws vis _ hvis x hx
      exact hvis x (by simpa [reachAux] using hx)
  | succ fuel ih =>
      intro ws vis hws hvis x hx
      cases ws with
      | nil => exact hvis x (by simpa [reachAux] using hx)
      | cons b ws' =>
          rw [reachAux] at hx
          by_cases hb : b ∈ vis
          · rw [if_pos hb] at hx
            exact ih ws' vis (fun c hc => hws c (List.mem_cons_of_mem _ hc)) hvis x hx
          · rw [if_neg hb] at hx
            by_cases hbb : b ∈ bbIds f
            · rw [if_pos hbb] at hx
              refine ih _ _ ?_ ?_ x hx
              · intro c hc
                rcases List.mem_append.mp hc with h | h
                · exact Relation.ReflTransGen.tail
                    (hws b (List.mem_cons_self b ws')) h
                · exact hws c (List.mem_cons_of_mem _ h)
              · intro v hv
                rcases List.mem_cons.mp hv with h | h
                · exact h ▸ hws b (List.mem_cons_self b ws')
                · exact hvis v h
            · rw [if_neg hbb] at hx
              exact ih ws' vis (fun c hc => hws c (List.mem_cons_of_mem _ hc)) hvis x hx

theorem computeReach_sound (f : Func) (e : BBId) :
    ∀ x ∈ computeReach f e, ReachSpec f e x := by
  intro x hx
  refine reachAux_sound f e (reachFuel f) [e] [] ?_ ?_ x hx
  · intro b hb
    rw [List.mem_singleton.mp hb]
    exact Relation.ReflTransGen.refl
  · intro v hv
    exact absurd hv (List.not_mem_nil v)

/-! ### Every incoming block written by the phi-update phase is reachable -/

theorem emitPhiIncoming_reach (pool : List CFGNode) (reach : List BBId) :
    ∀ (l : List (BBId × Value)), ∀ e ∈ emitPhiIncoming pool reach l,
      e.1 ∈ reach := by
  intro l
  induction l with
  | nil => intro e he; simp [emitPhiIncoming] at he
  | cons hd tl ih =>
      obtain ⟨b, v⟩ := hd
      intro e he
      rw [emitPhiIncoming_cons] at he
      by_cases hbb : overrideOf pool b ∈ reach
      · rw [if_pos hbb] at he
        rcases List.mem_cons.mp he with h | h
        · rw [h]; exact hbb
        · exact ih e h
      · rw [if_neg hbb] at he
        exact ih e he

theorem scanPreds_reach (reach : List BBId) (inc : List (BBId × Value)) :
    ∀ (ps seen : List BBId) (l : List (BBId × Value)),
      scanPreds reach inc ps seen = some l → ∀ e ∈ l, e.1 ∈ reach := by
  intro ps
  induction ps with
  | nil =>
      intro seen l h e he
      simp only [scanPreds, Option.some_inj] at h
      rw [← h] at he
      exact absurd he (List.not_mem_nil e)
  | cons p rest ih =>
      intro seen l h e he
      rw [scanPreds] at h
      by_cases hp : p ∈ reach
      · rw [if_pos hp] at h
        cases hl : lookupIncoming inc p with
        | none => simp only [hl] at h; exact absurd h (by simp)
        | some v =>
            simp only [hl] at h
            by_cases hs : p ∈ seen
            · rw [if_pos hs] at h
              rcases Option.map_eq_some'.mp h with ⟨l0, hrec, hl0⟩
              rw [← hl0] at he
              rcases List.mem_cons.mp he with h1 | h1
              · rw [h1]; exact hp
              · exact ih _ _ hrec e h1
            · rw [if_neg hs] at h
              exact ih _ _ h e he
      · rw [if_neg hp] at h
        exact ih _ _ h e he

theorem rematerializePhi_reach {preds reach : List BBId}
    {inc inc2 : List (BBId × Value)} (hin : ∀ e ∈ inc, e.1 ∈ reach)
    (h : rematerializePhi preds reach inc = some inc2) :
    ∀ e ∈ inc2, e.1 ∈ reach := by
  unfold rematerializePhi at h
  by_cases hlen : inc.length + 1 ≤ preds.length
  · rw [if_pos hlen] at h
    rcases Option.map_eq_some'.mp h with ⟨dups, hscan, hinc⟩
    rw [← hinc]
    intro e he
    rcases List.mem_append.mp he with h1 | h1
    · exact hin e h1
    · exact scanPreds_reach reach inc preds [] dups hscan e h1
  · rw [if_neg hlen] at h
    rw [← Option.some_inj.mp h]
    exact hin

theorem updatePhiInst_reach {pool : List CFGNode} {reach : List BBId}
    {n : CFGNode} {preds : List BBId} {i i' : Inst}
    (h : updatePhiInst pool reach n preds i = some i') :
    ∀ pid inc, i' = Inst.phi pid inc → ∀ e ∈ inc, e.1 ∈ reach := by
  cases i with
  | phi pid0 inc0 =>
      rw [updatePhiInst] at h
      cases hfind : n.phis.find? (fun p => p.phi = pid0) with
      | none =>
          rw [hfind] at h
          intro pid inc heq e he
          rw [← Option.some_inj.mp h] at heq
          injection heq with h1 h2
          rw [← h2] at he
          exact absurd he (List.not_mem_nil e)
      | some cphi =>
          rw [hfind] at h
          rcases Option.map_eq_some'.mp h with ⟨inc2, hrem, hi'⟩
          intro pid inc heq e he
          rw [← hi'] at heq
          injection heq with h1 h2
          rw [← h2] at he
          exact rematerializePhi_reach
            (fun e' he' => emitPhiIncoming_reach pool reach cphi.incoming e' he')
            hrem e he
  | op o =>
      intro pid inc heq
      rw [← Option.some_inj.mp h] at heq
      exact Inst.noConfusion heq
  | call fn args =>
      intro pid inc heq
      rw [← Option.some_inj.mp h] at heq
      exact Inst.noConfusion heq
  | term t =>
      intro pid inc heq
      rw [← Option.some_inj.mp h] at heq
      exact Inst.noConfusion heq

theorem updateInstrs_phi_reach {pool : List CFGNode} {reach : List BBId}
    {n : CFGNode} {preds : List BBId} :
    ∀ {l l' : List Inst}, updateInstrs pool reach n preds l = some l' →
      ∀ i ∈ l', ∀ pid inc, i = Inst.phi pid inc → ∀ e ∈ inc, e.1 ∈ reach := by
  intro l
  induction l with
  | nil =>
      intro l' h i hi
      simp only [updateInstrs, Option.some_inj] at h
      rw [← h] at hi
      exact absurd hi (List.not_mem_nil i)
  | cons a rest ih =>
      intro l' h i hi pid inc heq e he
      rw [updateInstrs] at h
      cases ha : updatePhiInst pool reach n preds a with
      | none => rw [ha] at h; exact absurd h (by simp)
      | some i0 =>
          rw [ha] at h
          cases hrest : updateInstrs pool reach n preds rest with
          | none =>
              simp only [hrest] at h
              exact absurd h (by simp)
          | some rest' =>
              simp only [hrest, Option.some_inj] at h
              rw [← h] at hi
              rcases List.mem_cons.mp hi with h1 | h1
              · exact updatePhiInst_reach ha pid inc (h1 ▸ heq) e he
              · exact ih hrest i h1 pid inc heq e he

/-! ### Effect of the pruning phase on blocks and pool -/

theorem find?_filter_of_imp {p q : BB → Bool} :
    ∀ (l : List BB), (∀ x ∈ l, p x = true → q x = true) →
      (l.filter q).find? p = l.find? p := by
  intro l
  induction l with
  | nil => intro _; rfl
  | cons a rest ih =>
      intro h
      by_cases hq : q a = true
      · rw [List.filter_cons_of_pos hq]
        by_cases hp : p a = true
        · rw [List.find?_cons_of_pos _ hp, List.find?_cons_of_pos _ hp]
        · rw [List.find?_cons_of_neg _ hp, List.find?_cons_of_neg _ hp]
          exact ih (fun x hx => h x (List.mem_cons_of_mem _ hx))
      · have hp : ¬ p a = true := fun hpa => hq (h a (List.mem_cons_self a rest) hpa)
        rw [List.filter_cons_of_neg (by simpa using hq), List.find?_cons_of_neg _ hp]
        exact ih (fun x hx => h x (List.mem_cons_of_mem _ hx))

theorem blockOf_prune_clear_of_reach {f : Func} {pool : List CFGNode}
    {reach : List BBId} {b : BBId} (hb : b ∈ reach) :
    blockOf (prune_clear f pool reach) b = blockOf f b := by
  unfold blockOf prune_clear
  have hid : ∀ blk : BB,
      ((if poolHasBlock pool blk.id = true ∧ blk.id ∉ reach then
          { blk with instrs := ([] : List Inst) } else blk) : BB).id = blk.id := by
    intro blk
    by_cases hc : poolHasBlock pool blk.id = true ∧ blk.id ∉ reach
    · rw [if_pos hc]
    · rw [if_neg hc]
  rw [List.find?_map]
  have hpred : ((fun blk : BB => decide (blk.id = b)) ∘
      (fun blk : BB => if poolHasBlock pool blk.id = true ∧ blk.id ∉ reach then
        { blk with instrs := ([] : List Inst) } else blk)) =
      (fun blk : BB => decide (blk.id = b)) := by
    funext blk
    simp only [Function.comp_apply, hid]
  rw [hpred]
  cases hf : f.find? (fun blk => decide (blk.id = b)) with
  | none => rfl
  | some blk0 =>
      have hb0 : blk0.id = b := by simpa using List.find?_some hf
      have : ¬ (poolHasBlock pool blk0.id = true ∧ blk0.id ∉ reach) := by
        intro hc
        exact hc.2 (hb0 ▸ hb)
      simp only [Option.map_some', if_neg this]

theorem blockOf_prune_erase_of_reach {f : Func} {pool : List CFGNode}
    {reach : List BBId} {b : BBId} (hb : b ∈ reach) :
    blockOf (prune_erase f pool reach) b = blockOf f b := by
  unfold blockOf prune_erase
  refine find?_filter_of_imp f (fun x hx hp => ?_)
  have hxb : x.id = b := by simpa using hp
  simp [hxb, hb]

theorem blockOf_prune_erase_none {f : Func} {pool : List CFGNode}
    {reach : List BBId} {b : BBId}
    (hpool : poolHasBlock pool b = true) (hb : b ∉ reach) :
    blockOf (prune_erase f pool reach) b = none := by
  unfold blockOf
  refine List.find?_eq_none.mpr (fun x hx hp => ?_)
  rcases List.mem_filter.mp hx with ⟨_, hq⟩
  have hxb : x.id = b := by simpa using hp
  rw [hxb] at hq
  simp [hpool, hb] at hq

theorem prune_clear_unreach {f : Func} {pool : List CFGNode}
    {reach : List BBId} {b : BBId}
    (hpool : poolHasBlock pool b = true) (hb : b ∉ reach) :
    ∀ x ∈ prune_clear f pool reach, x.id = b → x.instrs = [] := by
  intro x hx hxb
  rcases List.mem_map.mp hx with ⟨a, ha, hg⟩
  by_cases hc : poolHasBlock pool a.id = true ∧ a.id ∉ reach
  · rw [if_pos hc] at hg
    rw [← hg]
  · rw [if_neg hc] at hg
    rw [← hg] at hxb
    exact absurd ⟨by rw [hxb]; exact hpool, by rw [hxb]; exact hb⟩ hc

theorem prune_pool_mem {pool : List CFGNode} {reach : List BBId} :
    ∀ n ∈ prune_pool pool reach, n.bbId ∈ reach := by
  intro n hn
  have := (List.mem_filter.mp hn).2
  simpa using this

theorem prune_pool_not_mem {pool : List CFGNode} {reach : List BBId}
    {n : CFGNode} (hb : n.bbId ∉ reach) : n ∉ prune_pool pool reach := by
  intro hn
  exact hb (prune_pool_mem n hn)

/-! ### Effect of the phi-update fold on individual blocks -/

theorem update_phis_node_self {f f' : Func} {pool : List CFGNode}
    {reach : List BBId} {n : CFGNode} (hin : n.bbId ∈ reach)
    (h : update_phis_node f pool reach n = some f') :
    ∀ blk, blockOf f' n.bbId = some blk →
      ∀ i ∈ blk.instrs, ∀ pid inc, i = Inst.phi pid inc →
        ∀ e ∈ inc, e.1 ∈ reach := by
  rw [update_phis_node, if_pos hin] at h
  cases hb : blockOf f n.bbId with
  | none => simp only [hb] at h; exact absurd h (by simp)
  | some blk0 =>
      simp only [hb] at h
      cases hui : updateInstrs pool reach n (hostPreds f n.bbId) blk0.instrs with
      | none => simp only [hui] at h; exact absurd h (by simp)
      | some newInstrs =>
          simp only [hui, Option.some_inj] at h
          intro blk hblk i hi pid inc heq e he
          rw [← h] at hblk
          rw [setInstrs_result hb, Option.some_inj] at hblk
          rw [← hblk] at hi
          exact updateInstrs_phi_reach hui i hi pid inc heq e he

theorem update_phis_node_pres {f f' : Func} {pool : List CFGNode}
    {reach : List BBId} {m : CFGNode} {b : BBId}
    (h : update_phis_node f pool reach m = some f') (hne : b ≠ m.bbId) :
    blockOf f' b = blockOf f b := by
  rw [update_phis_node] at h
  by_cases hm : m.bbId ∈ reach
  · rw [if_pos hm] at h
    cases hb : blockOf f m.bbId with
    | none => simp only [hb] at h; exact absurd h (by simp)
    | some blk0 =>
        simp only [hb] at h
        cases hui : updateInstrs pool reach m (hostPreds f m.bbId) blk0.instrs with
        | none => simp only [hui] at h; exact absurd h (by simp)
        | some newInstrs =>
            simp only [hui, Option.some_inj] at h
            rw [← h]
            exact blockOf_mapBlock_ne f m.bbId b
              (fun x => { x with instrs := newInstrs }) (fun y => rfl) hne
  · rw [if_neg hm, Option.some_inj] at h
    rw [h]

theorem update_phis_aux_pres {pool : List CFGNode} {reach : List BBId}
    {b : BBId} :
    ∀ {l : List CFGNode} {f f' : Func},
      update_phis_aux f pool reach l = some f' →
      (∀ m ∈ l, m.bbId ≠ b) → blockOf f' b = blockOf f b := by
  intro l
  induction l with
  | nil =>
      intro f f' h _
      simp only [update_phis_aux, Option.some_inj] at h
      rw [h]
  | cons m rest ih =>
      intro f f' h hne
      rw [update_phis_aux] at h
      cases hm : update_phis_node f pool reach m with
      | none => simp only [hm] at h; exact absurd h (by simp)
      | some f1 =>
          simp only [hm] at h
          rw [ih h (fun m' hm' => hne m' (List.mem_cons_of_mem _ hm')),
            update_phis_node_pres hm
              (fun hb => hne m (List.mem_cons_self m rest) hb.symm)]

theorem update_phis_aux_phiOK {pool : List CFGNode} {reach : List BBId}
    {n : CFGNode} (hin : n.bbId ∈ reach) :
    ∀ {l : List CFGNode} {f f' : Func},
      update_phis_aux f pool reach l = some f' →
      n ∈ l → (l.map (fun m => m.bbId)).Nodup →
      ∀ blk, blockOf f' n.bbId = some blk →
        ∀ i ∈ blk.instrs, ∀ pid inc, i = Inst.phi pid inc →
          ∀ e ∈ inc, e.1 ∈ reach := by
  intro l
  induction l with
  | nil => intro f f' _ hmem; exact absurd hmem (List.not_mem_nil n)
  | cons m rest ih =>
      intro f f' h hmem hnd blk hblk i hi pid inc heq e he
      rw [update_phis_aux] at h
      cases hm : update_phis_node f pool reach m with
      | none => simp only [hm] at h; exact absurd h (by simp)
      | some f1 =>
          simp only [hm] at h
          simp only [List.map_cons] at hnd
          rcases List.mem_cons.mp hmem with h1 | h1
          · have hrest_ne : ∀ m' ∈ rest, m'.bbId ≠ n.bbId := by
              intro m' hm' hcontra
              exact (List.nodup_cons.mp hnd).1
                (h1 ▸ hcontra ▸ List.mem_map_of_mem (fun m0 => m0.bbId) hm')
            have hpres := update_phis_aux_pres h hrest_ne
            rw [hpres] at hblk
            exact update_phis_node_self hin (h1 ▸ hm) blk hblk i hi pid inc heq e he
          · exact ih h h1 (List.nodup_cons.mp hnd).2 blk hblk i hi pid inc heq e he

/-- Input of the C7 counterexample: a loop header `A` without a natural
merge block whose continue block is the header itself, and an exit block
`B`. -/
def C7cex_in : EmitState :=
  ⟨[⟨0, "A", [.term (.condBr (.var 1) 0 1)]⟩,
    ⟨1, "B", [.term (.ret none)]⟩],
   [⟨0, "A", .MLoop, none, some 0, none, false, none,
      .condition (.var 1) 0 1, []⟩,
    ⟨1, "B", .MNone, none, none, none, false, none, .ret none, []⟩],
   0, 2⟩

/-- The function emitted for `C7cex_in`: merge annotation has synthesized
the fake merge block `A.fake_merge` (identity 2) after pruning ran, so it
stays in the function although nothing branches to it. -/
def C7cexF : Func :=
  [⟨0, "A", [.call "floor.loop_merge" [2, 0], .call "floor.continue_block" [],
     .term (.condBr (.var 1) 0 1)]⟩,
   ⟨2, "A.fake_merge", [.call "floor.merge_block" [], .term .unreach]⟩,
   ⟨1, "B", [.term (.ret none)]⟩]

/-- Full output state of the C7 counterexample run. -/
def C7cex_out : EmitState :=
  ⟨C7cexF,
   [⟨0, "A", .MLoop, none, some 0, none, false, none,
      .condition (.var 1) 0 1, []⟩,
    ⟨1, "B", .MNone, none, none, none, false, none, .ret none, []⟩],
   0, 3⟩

/-- Counterexample to claim C7: after a successful full emission
(`cfg_to_llvm_ir` with merge annotation) the emitted function still holds
basic block 2 (`A.fake_merge`), yet block 2 is not reachable from the entry
block 0 by forward successor edges — the fake merge block is synthesized by
the merge-annotation phase, which runs after pruning. -/
theorem C7_counterexample :
    cfg_to_llvm_ir C7cex_in 0 true = some C7cex_out ∧
    (2 : BBId) ∈ bbIds C7cexF ∧ ¬ ReachSpec C7cexF 0 2 := by
  refine ⟨by decide, by decide, ?_⟩
  have hsucc : ∀ c : BBId, (2 : BBId) ∉ hostSuccs C7cexF c := by
    intro c
    by_cases h0 : c = 0
    · rw [h0]; decide
    by_cases h1 : c = 1
    · rw [h1]; decide
    by_cases h2 : c = 2
    · rw [h2]; decide
    have hb : blockOf C7cexF c = none := by
      refine List.find?_eq_none.mpr (fun x hx hp => ?_)
      have hxc : x.id = c := by simpa using hp
      have hmem : x.id = 0 ∨ x.id = 2 ∨ x.id = 1 := by
        simp only [C7cexF, List.mem_cons, List.not_mem_nil, or_false] at hx
        rcases hx with h | h | h
        · exact Or.inl (by rw [h])
        · exact Or.inr (Or.inl (by rw [h]))
        · exact Or.inr (Or.inr (by rw [h]))
      rcases hmem with h | h | h
      · exact h0 (by rw [← hxc, h])
      · exact h2 (by rw [← hxc, h])
      · exact h1 (by rw [← hxc, h])
    intro hmem
    rw [hostSuccs, hb] at hmem
    exact absurd hmem (List.not_mem_nil 2)
  intro h
  rcases Relation.ReflTransGen.cases_tail h with h0 | ⟨c, _, hc⟩
  · exact (by decide : (2 : BBId) ≠ 0) h0
  · exact hsucc c hc

/-- Claim C7 (amended): pruning erases unreachable blocks without raising
an error, for the blocks owned by pool nodes.  With `reach` the computed
reachable set of the post-terminator-update state `st2` (every element of
which is reachable from the entry in the specification sense) and `st3` the
successful phi-update result: every block surviving the pruning passes that
is owned by a pool node is reachable; for every pool node whose block is
unreachable, the clearing passes erase all of the block's instructions, the
erasure pass removes the block from the function, and the node is removed
from the pool; every surviving pool node is reachable; and in the pruned
function no phi of a reachable pool block retains an incoming entry for an
unreachable predecessor.  (Blocks with no owning pool node — the fake
selection helper blocks — are not touched by pruning, and the
merge-annotation phase may later add unreachable fake blocks, as
`C7_counterexample` shows.) -/
theorem C7_unreachable_pruning (st2 st3 : EmitState) (reach : List BBId)
    (hreach : reach = computeReach st2.F st2.entry)
    (hnd : (st2.pool.map (fun n => n.bbId)).Nodup)
    (hup : update_phis st2 reach = some st3) :
    (∀ x ∈ reach, ReachSpec st2.F st2.entry x) ∧
    (∀ b ∈ (prune st3 reach).F, poolHasBlock st2.pool b.id = true →
       b.id ∈ reach) ∧
    (∀ n ∈ st2.pool, n.bbId ∉ reach →
       (∀ b ∈ prune_clear st3.F st2.pool reach, b.id = n.bbId →
          b.instrs = []) ∧
       blockOf (prune st3 reach).F n.bbId = none ∧
       n ∉ (prune st3 reach).pool) ∧
    (∀ n ∈ (prune st3 reach).pool, n.bbId ∈ reach) ∧
    (∀ n ∈ st2.pool, n.bbId ∈ reach →
       ∀ blk, blockOf (prune st3 reach).F n.bbId = some blk →
         ∀ i ∈ blk.instrs, ∀ pid inc, i = Inst.phi pid inc →
           ∀ e ∈ inc, e.1 ∈ reach) := by
  rw [update_phis] at hup
  rcases Option.map_eq_some'.mp hup with ⟨f0, haux, h3⟩
  subst h3
  refine ⟨?_, ?_, ?_, ?_, ?_⟩
  · intro x hx
    rw [hreach] at hx
    exact computeReach_sound st2.F st2.entry x hx
  · intro b hb hpool
    have hb' : b ∈ prune_erase (prune_clear f0 st2.pool reach) st2.pool reach :=
      hb
    rcases List.mem_filter.mp hb' with ⟨_, hq⟩
    simpa [hpool] using hq
  · intro n hn hnr
    have hpoolHas : poolHasBlock st2.pool n.bbId = true := by
      unfold poolHasBlock
      exact List.any_eq_true.mpr ⟨n, hn, by simp⟩
    refine ⟨?_, ?_, ?_⟩
    · intro b hb hbid
      exact prune_clear_unreach hpoolHas hnr b hb hbid
    · exact blockOf_prune_erase_none hpoolHas hnr
    · exact prune_pool_not_mem hnr
  · intro n hn
    exact prune_pool_mem n hn
  · intro n hn hin blk hblk i hi pid inc heq e he
    have hblk1 : blockOf
        (prune_erase (prune_clear f0 st2.pool reach) st2.pool reach) n.bbId =
        some blk := hblk
    rw [@blockOf_prune_erase_of_reach (prune_clear f0 st2.pool reach)
          st2.pool reach n.bbId hin,
        @blockOf_prune_clear_of_reach f0 st2.pool reach n.bbId hin] at hblk1
    exact update_phis_aux_phiOK hin haux hn hnd blk hblk1 i hi pid inc heq e he

/-- State used to instantiate the pruning theorem: entry `e` branches to
`t`, which holds a phi with incoming entries for `e` and for the
unreachable block `d`. -/
def C7w2 : EmitState :=
  ⟨[⟨0, "e", [.term (.br 1)]⟩,
    ⟨1, "t", [.phi 5 [(0, .var 1), (2, .var 2)], .term (.ret none)]⟩,
    ⟨2, "d", [.term (.br 1)]⟩],
   [⟨0, "e", .MNone, none, none, none, false, none, .branch 1, []⟩,
    ⟨1, "t", .MNone, none, none, none, false, none, .ret none,
      [⟨5, [(0, .var 1), (2, .var 2)]⟩]⟩,
    ⟨2, "d", .MNone, none, none, none, false, none, .branch 1, []⟩],
   0, 3⟩

/-- Phi-update result for `C7w2`: the phi entry for the unreachable block
`d` (identity 2) has been dropped. -/
def C7w3 : EmitState :=
  ⟨[⟨0, "e", [.term (.br 1)]⟩,
    ⟨1, "t", [.phi 5 [(0, .var 1)], .term (.ret none)]⟩,
    ⟨2, "d", [.term (.br 1)]⟩],
   C7w2.pool, 0, 3⟩

/-- Concrete instance of the pruning theorem on `C7w2`: after phi update
and pruning, every surviving pool node is reachable. -/
theorem C7_unreachable_pruning_witness :
    ([1, 0] : List BBId) = computeReach C7w2.F C7w2.entry ∧
    (C7w2.pool.map (fun n => n.bbId)).Nodup ∧
    update_phis C7w2 [1, 0] = some C7w3 ∧
    (∀ n ∈ (prune C7w3 [1, 0]).pool, n.bbId ∈ ([1, 0] : List BBId)) :=
  ⟨by decide, by decide, by decide,
    (C7_unreachable_pruning C7w2 C7w3 [1, 0] (by decide) (by decide)
      (by decide)).2.2.2.1⟩

end CFGT
